import Mathlib

/-!
Verification development for the gamedump repository.

The repository contains two Discrete Interval Encoding Tree (DIET) variants
(src/misc/diet.c, unbalanced; src/misc/diet3.c, AVL-balanced) and an interval
AVL tree (src/misc/avl_tree_ref.c).  The C code stores nodes in a global
arena addressed by i16 indices with sentinel T = INT16_MAX.  The two DIET
variants never read a node after it is dropped from the tree and mutate a
node only while it is the unique root of the current recursion, so the
reachable structure is a tree and is embedded here as an inductive tree with
Int endpoints (the C arithmetic on the bounded coordinate domain is exact).
Calls to blit(start, end) are recorded as (start, end) pairs in a trace list;
such a pair denotes the closed range [start, end], empty when start > end,
matching the C loop in blit.
-/

namespace Gamedump

/-- A recorded blit(start, end) callback: the closed range [start, end]. -/
abbrev Blit := Int × Int

/-- The point i is covered by some interval pair in the list. -/
def coversL (ivs : List (Int × Int)) (i : Int) : Prop :=
  ∃ p ∈ ivs, p.1 ≤ i ∧ i ≤ p.2

instance (ivs : List (Int × Int)) (i : Int) : Decidable (coversL ivs i) :=
  List.decidableBEx _ ivs

/-- Interval-list invariant matching the DIET checkers: every stored interval
is valid, and any interval ends at least two below the start of any later one
(pairwise neither overlapping nor adjacent by one unit). -/
def OkL (ivs : List (Int × Int)) : Prop :=
  (∀ p ∈ ivs, p.1 ≤ p.2) ∧ ivs.Pairwise fun p q => p.2 + 2 ≤ q.1

instance (ivs : List (Int × Int)) : Decidable (OkL ivs) := by
  unfold OkL; infer_instance

/-- Exactly the formula of overlapping_or_adjacent in diet.c / diet3.c. -/
def overlapping_or_adjacent (x y : Int × Int) : Prop :=
  x.1 ≤ y.2 + 1 ∧ y.1 ≤ x.2 + 1

instance (x y : Int × Int) : Decidable (overlapping_or_adjacent x y) := by
  unfold overlapping_or_adjacent; infer_instance

namespace Diet

/-- Node of diet.c: struct node { i16 low, high, left, right }.  The sentinel
index T is the leaf constructor. -/
inductive Tree where
  | leaf : Tree
  | node (low high : Int) (left right : Tree) : Tree
deriving DecidableEq, Repr

open Tree

/-- Inorder list of stored intervals. -/
def Tree.intervals : Tree → List (Int × Int)
  | leaf => []
  | node s e l r => l.intervals ++ (s, e) :: r.intervals

/-- diet.c less_than_or_equal(x, low, blit_low, blit_high, *out_low).
Returns (new tree, out_low, emitted blit trace). -/
def less_than_or_equal : Tree → Int → Int → Int → Tree × Int × List Blit
  | leaf, low, _, _ => (leaf, low, [])
  | node s e l r, low, blit_low, blit_high =>
    if low > e + 1 then
      let new_blit_low := e + 1
      let new_blit_high := blit_low
      let res := less_than_or_equal r low new_blit_low new_blit_high
      (node s e l res.1, min low res.2.1, res.2.2)
    else if low ≥ s then
      (l, s, [(e + 1, blit_high)])
    else
      let pre : List Blit :=
        (e + 1, blit_high) :: (if l = leaf then [(blit_low, s - 1)] else [])
      let res := less_than_or_equal l low blit_low (s - 1)
      (res.1, res.2.1, pre ++ res.2.2)

/-- diet.c greater_than_or_equal(x, high, blit_low, blit_high, *out_high).
Returns (new tree, out_high, emitted blit trace). -/
def greater_than_or_equal : Tree → Int → Int → Int → Tree × Int × List Blit
  | leaf, high, _, _ => (leaf, high, [])
  | node s e l r, high, blit_low, blit_high =>
    if high < s - 1 then
      let new_blit_low := blit_high
      let new_blit_high := s - 1
      let res := greater_than_or_equal l high new_blit_low new_blit_high
      (node s e res.1 r, max high res.2.1, res.2.2)
    else if high ≤ e then
      (r, e, [(blit_low, s - 1)])
    else
      let pre : List Blit :=
        (blit_low, s - 1) :: (if r = leaf then [(e + 1, blit_high)] else [])
      let res := greater_than_or_equal r high (e + 1) blit_high
      (res.1, res.2.1, pre ++ res.2.2)

/-- diet.c insert_range(x, low, high); node x is mutated in place in the C
code and returned, here the updated tree is returned with the blit trace. -/
def insert_range : Tree → Int → Int → Tree × List Blit
  | leaf, low, high => (node low high leaf leaf, [(low, high)])
  | node s e l r, low, high =>
    let ll := if s < low then s else low
    let lh := if s < low then e else high
    let rl := if s < low then low else s
    let rh := if s < low then high else e
    let dbl := if s < low then max rl (e + 1) else ll
    let dbh := if s < low then rh else min lh (rl - 1)
    if lh ≥ rl ∨ lh + 1 = rl then
      if low ≥ s ∧ high ≤ e then (node s e l r, [])
      else
        let r1l := ll
        let r1h := max lh rh
        let resL := less_than_or_equal l r1l dbl dbh
        let resR := greater_than_or_equal r r1h dbl dbh
        let t3 : List Blit :=
          if l = leaf ∧ r = leaf then [(dbl, dbh)] else []
        (node resL.2.1 resR.2.1 resL.1 resR.1, resL.2.2 ++ (resR.2.2 ++ t3))
    else
      if ll = s ∧ lh = e then
        let res := insert_range r rl rh
        (node s e l res.1, res.2)
      else
        let res := insert_range l ll lh
        (node s e res.1 r, res.2)

/-- Running a sequence of diet.c inserts from the empty tree (clear());
insert(low, high) calls insert_range on the root. -/
def insertSeq (ops : List (Int × Int)) : Tree :=
  ops.foldl (fun t p => (insert_range t p.1 p.2).1) leaf

end Diet

namespace Diet3

/-- diet3.c bal_const. -/
def bal_const : Int := 1

/-- Node of diet3.c: struct node { i16 start, end, height, left, right }. -/
inductive Tree where
  | leaf : Tree
  | node (s e h : Int) (left right : Tree) : Tree
deriving DecidableEq, Repr

open Tree

/-- Inorder list of stored intervals. -/
def Tree.intervals : Tree → List (Int × Int)
  | leaf => []
  | node s e _ l r => l.intervals ++ (s, e) :: r.intervals

/-- diet3.c height(tree): 0 for the sentinel, else the stored height field. -/
def height : Tree → Int
  | leaf => 0
  | node _ _ h _ _ => h

/-- diet3.c height_join. -/
def height_join (l r : Tree) : Int := 1 + max (height l) (height r)

/-- diet3.c create (new_node with computed height). -/
def create (s e : Int) (l r : Tree) : Tree := node s e (height_join l r) l r

/-- diet3.c balance(start, end, l, r).  The two err("Node.balance") aborts
are modelled as leaf; they are unreachable whenever all stored heights are
at least 1 (see posH lemmas below). -/
def balance (s e : Int) (l r : Tree) : Tree :=
  let hl := height l
  let hr := height r
  if hl > hr + bal_const then
    match l with
    | leaf => leaf
    | node ls le _ ll lr =>
      if height ll ≥ height lr then
        create ls le ll (create s e lr r)
      else
        match lr with
        | leaf => leaf
        | node lrs lre _ lrl lrr =>
          create lrs lre (create ls le ll lrl) (create s e lrr r)
  else if hr > hl + bal_const then
    match r with
    | leaf => leaf
    | node rs re _ rl rr =>
      if height rr ≥ height rl then
        create rs re (create s e l rl) rr
      else
        match rl with
        | leaf => leaf
        | node rls rle _ rll rlr =>
          create rls rle (create s e l rll) (create rs re rlr rr)
  else
    node s e (if hl ≥ hr then hl + 1 else hr + 1) l r

/-- diet3.c add(tree, left, start, end). -/
def add (t : Tree) (goLeft : Bool) (s e : Int) : Tree :=
  match t with
  | leaf => node s e 1 leaf leaf
  | node ts te _ tl tr =>
    if goLeft then balance ts te (add tl goLeft s e) tr
    else balance ts te tl (add tr goLeft s e)

/-- Number of nodes, used as the termination measure for join. -/
def size : Tree → Nat
  | leaf => 0
  | node _ _ _ l r => size l + size r + 1

/-- diet3.c join(start, end, l, r). -/
def join (s e : Int) (l r : Tree) : Tree :=
  match l, r with
  | leaf, _ => add r true s e
  | node _ _ _ _ _, leaf => add l false s e
  | node ls le lh ll lr, node rs re rh rl rr =>
    if lh > rh + bal_const then
      balance ls le ll (join s e lr (node rs re rh rl rr))
    else if rh > lh + bal_const then
      balance rs re (join s e (node ls le lh ll lr) rl) rr
    else
      create s e (node ls le lh ll lr) (node rs re rh rl rr)
termination_by size l + size r
decreasing_by
  · simp [size]; omega
  · simp [size]; omega

/-- diet3.c find_del_left(tree, start, def_blit_end, *outs, *outl).
Returns (outs, outl, emitted blit trace). -/
def find_del_left (t : Tree) (start dbe : Int) : Int × Tree × List Blit :=
  match t with
  | leaf => (start, leaf, [(start, dbe)])
  | node s e _ l r =>
    if start > e + 1 then
      let res := find_del_left r start dbe
      (res.1, join s e l res.2.1, res.2.2)
    else if start < s then
      find_del_left l start dbe
    else
      (s, l, [(e + 1, dbe)])

/-- diet3.c find_del_right(tree, end, def_blit_start, *oute, *outr).
Returns (oute, outr, emitted blit trace). -/
def find_del_right (t : Tree) (en dbs : Int) : Int × Tree × List Blit :=
  match t with
  | leaf => (en, leaf, [(dbs, en)])
  | node s e _ l r =>
    if en < s - 1 then
      let res := find_del_right l en dbs
      (res.1, join s e res.2.1 r, res.2.2)
    else if en > e then
      find_del_right r en dbs
    else
      (e, r, [(dbs, s - 1)])

/-- diet3.c insert_range(tree, start, end): returns the new tree and the
blit trace of the call. -/
def insert_range (t : Tree) (start en : Int) : Tree × List Blit :=
  match t with
  | leaf => (node start en 1 leaf leaf, [(start, en)])
  | node s e _ l r =>
    if en < s - 1 then
      let res := insert_range l start en
      (join s e res.1 r, res.2)
    else if start > e + 1 then
      let res := insert_range r start en
      (join s e l res.1, res.2)
    else
      let dbs := e + 1
      let dbe := s - 1
      let resL := if start ≥ s then (s, l, ([] : List Blit))
        else find_del_left l start dbe
      let resR := if en ≤ e then (e, r, ([] : List Blit))
        else find_del_right r en dbs
      (join resL.1 resR.1 resL.2.1 resR.2.1, resL.2.2 ++ resR.2.2)

/-- Running a sequence of diet3.c inserts from the empty tree. -/
def insertSeq (ops : List (Int × Int)) : Tree :=
  ops.foldl (fun t p => (insert_range t p.1 p.2).1) leaf

end Diet3

/-! ## Generic facts about interval lists -/

theorem coversL_append {xs ys : List (Int × Int)} {i : Int} :
    coversL (xs ++ ys) i ↔ coversL xs i ∨ coversL ys i := by
  simp [coversL, List.mem_append, or_and_right, exists_or]

theorem coversL_cons {s e : Int} {ys : List (Int × Int)} {i : Int} :
    coversL ((s, e) :: ys) i ↔ (s ≤ i ∧ i ≤ e) ∨ coversL ys i := by
  simp [coversL, List.mem_cons, or_and_right, exists_or]

theorem coversL_nil {i : Int} : ¬ coversL [] i := by
  simp [coversL]

theorem coversL_sublist {xs ys : List (Int × Int)} {i : Int} (h : xs.Sublist ys)
    (hc : coversL xs i) : coversL ys i := by
  obtain ⟨p, hp, h1, h2⟩ := hc
  exact ⟨p, h.mem hp, h1, h2⟩

theorem coversL_upper {xs : List (Int × Int)} {i B : Int}
    (hB : ∀ p ∈ xs, p.2 ≤ B) (hc : coversL xs i) : i ≤ B := by
  obtain ⟨p, hp, _, h2⟩ := hc
  exact le_trans h2 (hB p hp)

theorem coversL_lower {xs : List (Int × Int)} {i B : Int}
    (hB : ∀ p ∈ xs, B ≤ p.1) (hc : coversL xs i) : B ≤ i := by
  obtain ⟨p, hp, h1, _⟩ := hc
  exact le_trans (hB p hp) h1

theorem OkL_nil : OkL [] := ⟨by simp, List.Pairwise.nil⟩

theorem OkL_filter {xs : List (Int × Int)} (f : Int × Int → Bool) (h : OkL xs) :
    OkL (xs.filter f) := by
  refine ⟨fun p hp => h.1 p (List.mem_of_mem_filter hp), ?_⟩
  exact h.2.sublist (List.filter_sublist xs)

/-- Decomposing the invariant of an inorder list at a node. -/
theorem OkL_node {l r : List (Int × Int)} {s e : Int}
    (h : OkL (l ++ (s, e) :: r)) :
    OkL l ∧ OkL r ∧ s ≤ e ∧ (∀ p ∈ l, p.2 + 2 ≤ s) ∧ (∀ q ∈ r, e + 2 ≤ q.1) := by
  obtain ⟨hv, hp⟩ := h
  rw [List.pairwise_append] at hp
  obtain ⟨hpl, hpc, hcross⟩ := hp
  rw [List.pairwise_cons] at hpc
  refine ⟨⟨fun p hp => hv p (by simp [hp]), hpl⟩,
    ⟨fun q hq => hv q (by simp [hq]), hpc.2⟩,
    hv (s, e) (by simp), ?_, ?_⟩
  · exact fun p hp => hcross p hp (s, e) (by simp)
  · exact fun q hq => hpc.1 q hq

/-- Rebuilding the invariant of an inorder list at a node. -/
theorem OkL_glue {l r : List (Int × Int)} {s e : Int}
    (hl : OkL l) (hr : OkL r) (hse : s ≤ e)
    (hls : ∀ p ∈ l, p.2 + 2 ≤ s) (hre : ∀ q ∈ r, e + 2 ≤ q.1) :
    OkL (l ++ (s, e) :: r) := by
  refine ⟨?_, ?_⟩
  · intro p hp
    rcases List.mem_append.1 hp with h | h
    · exact hl.1 p h
    · rcases List.mem_cons.1 h with rfl | h
      · exact hse
      · exact hr.1 p h
  · rw [List.pairwise_append]
    refine ⟨hl.2, ?_, ?_⟩
    · rw [List.pairwise_cons]
      exact ⟨fun q hq => hre q hq, hr.2⟩
    · intro p hp q hq
      rcases List.mem_cons.1 hq with rfl | hq
      · exact hls p hp
      · have h1 := hls p hp
        have h2 := hre q hq
        omega

theorem filter_eq_self_of_all {xs : List (Int × Int)} {f : Int × Int → Bool}
    (h : ∀ p ∈ xs, f p = true) : xs.filter f = xs :=
  List.filter_eq_self.2 h

theorem filter_eq_nil_of_none {xs : List (Int × Int)} {f : Int × Int → Bool}
    (h : ∀ p ∈ xs, f p = false) : xs.filter f = [] := by
  rw [List.filter_eq_nil_iff]
  intro p hp
  simp [h p hp]

/-- Specification of the low-endpoint push-down (less_than_or_equal in
diet.c, find_del_left in diet3.c): a is the new low endpoint, the surviving
inorder list uIv keeps exactly the intervals strictly left of a with a gap,
every dropped interval lies at or right of a, the half-open range [a, low)
was already covered, and a is either low itself or the low endpoint of a
stored interval. -/
def LteSpecL (ivs : List (Int × Int)) (low : Int)
    (uIv : List (Int × Int)) (a : Int) : Prop :=
  a ≤ low ∧
  uIv = ivs.filter (fun p => decide (p.2 + 2 ≤ a)) ∧
  (∀ p ∈ ivs, ¬(p.2 + 2 ≤ a) → a ≤ p.1) ∧
  (∀ i : Int, a ≤ i → i < low → coversL ivs i) ∧
  (a = low ∨ ∃ p ∈ ivs, a = p.1)

/-- Mirror-image specification of the high-endpoint push-down
(greater_than_or_equal in diet.c, find_del_right in diet3.c). -/
def GteSpecL (ivs : List (Int × Int)) (high : Int)
    (vIv : List (Int × Int)) (b : Int) : Prop :=
  high ≤ b ∧
  vIv = ivs.filter (fun q => decide (b + 2 ≤ q.1)) ∧
  (∀ q ∈ ivs, ¬(b + 2 ≤ q.1) → q.2 ≤ b) ∧
  (∀ i : Int, high < i → i ≤ b → coversL ivs i) ∧
  (b = high ∨ ∃ q ∈ ivs, b = q.2)

/-- Result specification shared by the DIET insert_range proofs: the new
inorder interval list satisfies the isolation invariant and covers exactly
the old set plus [low, high]. -/
def InsOutL (tIv : List (Int × Int)) (low high : Int)
    (resIv : List (Int × Int)) : Prop :=
  OkL resIv ∧
  ∀ i : Int, coversL resIv i ↔ (coversL tIv i ∨ (low ≤ i ∧ i ≤ high))

/-- Branch of the low push-down that keeps the current node: start lies
strictly beyond e + 1, so the node and its left part survive and the
recursion continues in the right part. -/
theorem LteSpecL_keep {lIv rIv uIv : List (Int × Int)} {s e start a : Int}
    (hls : ∀ p ∈ lIv, p.2 + 2 ≤ s)
    (hre : ∀ q ∈ rIv, e + 2 ≤ q.1)
    (hse : s ≤ e)
    (h1 : start > e + 1)
    (IH : LteSpecL rIv start uIv a) :
    LteSpecL (lIv ++ (s, e) :: rIv) start (lIv ++ (s, e) :: uIv) a := by
  obtain ⟨ih1, ih2, ih3, ih4, ih5⟩ := IH
  have ha_lb : e + 2 ≤ a := by
    rcases ih5 with h | ⟨p, hp, hh⟩
    · omega
    · have := hre p hp
      omega
  refine ⟨ih1, ?_, ?_, ?_, ?_⟩
  · rw [List.filter_append, List.filter_cons]
    have hkeep : ∀ p ∈ lIv, (decide (p.2 + 2 ≤ a)) = true := by
      intro p hp
      have := hls p hp
      simp only [decide_eq_true_eq]
      omega
    rw [filter_eq_self_of_all hkeep]
    have hd : (decide (e + 2 ≤ a)) = true := by simpa using ha_lb
    simp [hd, ih2]
  · intro p hp hnp
    simp only [List.mem_append, List.mem_cons] at hp
    rcases hp with hp | rfl | hp
    · exact absurd (by have := hls p hp; omega) hnp
    · exact absurd (by omega) hnp
    · exact ih3 p hp hnp
  · intro i hi1 hi2
    rw [coversL_append, coversL_cons]
    exact Or.inr (Or.inr (ih4 i hi1 hi2))
  · rcases ih5 with h | ⟨p, hp, h⟩
    · exact Or.inl h
    · exact Or.inr ⟨p, by simp [hp], h⟩

/-- Branch of the low push-down that finds its node: s ≤ start ≤ e + 1, so
this node absorbs start, its left part survives, and the node itself and
everything to its right are dropped into the merged interval. -/
theorem LteSpecL_found {lIv rIv : List (Int × Int)} {s e start : Int}
    (hls : ∀ p ∈ lIv, p.2 + 2 ≤ s)
    (hre : ∀ q ∈ rIv, e + 2 ≤ q.1)
    (hvr : ∀ q ∈ rIv, q.1 ≤ q.2)
    (hse : s ≤ e)
    (h1 : ¬start > e + 1) (h2 : s ≤ start) :
    LteSpecL (lIv ++ (s, e) :: rIv) start lIv s := by
  refine ⟨h2, ?_, ?_, ?_, ?_⟩
  · rw [List.filter_append, List.filter_cons]
    have hkeepl : ∀ p ∈ lIv, (decide (p.2 + 2 ≤ s)) = true := by
      intro p hp
      simpa using hls p hp
    rw [filter_eq_self_of_all hkeepl]
    have h3 : (decide (e + 2 ≤ s)) = false := by
      simp only [decide_eq_false_iff_not]
      omega
    have hdropr : rIv.filter (fun q => decide (q.2 + 2 ≤ s)) = [] := by
      apply filter_eq_nil_of_none
      intro q hq
      have h4 := hre q hq
      have h5 := hvr q hq
      simp only [decide_eq_false_iff_not]
      omega
    simp [h3, hdropr]
  · intro p hp hnp
    simp only [List.mem_append, List.mem_cons] at hp
    rcases hp with hp | rfl | hp
    · exact absurd (by have := hls p hp; omega) hnp
    · exact le_refl _
    · have := hre p hp
      omega
  · intro i hi1 hi2
    rw [coversL_append, coversL_cons]
    exact Or.inr (Or.inl ⟨hi1, by omega⟩)
  · exact Or.inr ⟨(s, e), by simp, rfl⟩

/-- Branch of the low push-down that descends left: start lies strictly
below s, so this node and its whole right part are dropped into the merged
interval. -/
theorem LteSpecL_drop {lIv rIv uIv : List (Int × Int)} {s e start a : Int}
    (hre : ∀ q ∈ rIv, e + 2 ≤ q.1)
    (hvr : ∀ q ∈ rIv, q.1 ≤ q.2)
    (hse : s ≤ e)
    (h2 : ¬start ≥ s)
    (IH : LteSpecL lIv start uIv a) :
    LteSpecL (lIv ++ (s, e) :: rIv) start uIv a := by
  obtain ⟨ih1, ih2, ih3, ih4, ih5⟩ := IH
  push_neg at h2
  refine ⟨ih1, ?_, ?_, ?_, ?_⟩
  · rw [List.filter_append, List.filter_cons]
    have h3 : (decide (e + 2 ≤ a)) = false := by
      simp only [decide_eq_false_iff_not]
      omega
    have hdropr : rIv.filter (fun q => decide (q.2 + 2 ≤ a)) = [] := by
      apply filter_eq_nil_of_none
      intro q hq
      have h4 := hre q hq
      have h5 := hvr q hq
      simp only [decide_eq_false_iff_not]
      omega
    simp [h3, hdropr, ih2]
  · intro p hp hnp
    simp only [List.mem_append, List.mem_cons] at hp
    rcases hp with hp | rfl | hp
    · exact ih3 p hp hnp
    · omega
    · have := hre p hp
      omega
  · intro i hi1 hi2
    rw [coversL_append, coversL_cons]
    exact Or.inl (ih4 i hi1 hi2)
  · rcases ih5 with h | ⟨p, hp, h⟩
    · exact Or.inl h
    · exact Or.inr ⟨p, by simp [hp], h⟩

/-- Branch of the high push-down that keeps the current node: en lies
strictly below s - 1, so the node and its right part survive and the
recursion continues in the left part. -/
theorem GteSpecL_keep {lIv rIv vIv : List (Int × Int)} {s e en b : Int}
    (hls : ∀ p ∈ lIv, p.2 + 2 ≤ s)
    (hre : ∀ q ∈ rIv, e + 2 ≤ q.1)
    (hse : s ≤ e)
    (h1 : en < s - 1)
    (IH : GteSpecL lIv en vIv b) :
    GteSpecL (lIv ++ (s, e) :: rIv) en (vIv ++ (s, e) :: rIv) b := by
  obtain ⟨ih1, ih2, ih3, ih4, ih5⟩ := IH
  have hb_ub : b + 2 ≤ s := by
    rcases ih5 with h | ⟨q, hq, hh⟩
    · omega
    · have := hls q hq
      omega
  refine ⟨ih1, ?_, ?_, ?_, ?_⟩
  · rw [List.filter_append, List.filter_cons]
    have hkeep : ∀ q ∈ rIv, (decide (b + 2 ≤ q.1)) = true := by
      intro q hq
      have := hre q hq
      simp only [decide_eq_true_eq]
      omega
    rw [filter_eq_self_of_all hkeep]
    have hd : (decide (b + 2 ≤ s)) = true := by simpa using hb_ub
    simp [hd, ih2]
  · intro q hq hnq
    simp only [List.mem_append, List.mem_cons] at hq
    rcases hq with hq | rfl | hq
    · exact ih3 q hq hnq
    · exact absurd (by omega) hnq
    · exact absurd (by have := hre q hq; omega) hnq
  · intro i hi1 hi2
    rw [coversL_append, coversL_cons]
    exact Or.inl (ih4 i hi1 hi2)
  · rcases ih5 with h | ⟨q, hq, h⟩
    · exact Or.inl h
    · exact Or.inr ⟨q, by simp [hq], h⟩

/-- Branch of the high push-down that finds its node: s - 1 ≤ en ≤ e, so
this node absorbs en, its right part survives, and the node itself and
everything to its left are dropped into the merged interval. -/
theorem GteSpecL_found {lIv rIv : List (Int × Int)} {s e en : Int}
    (hls : ∀ p ∈ lIv, p.2 + 2 ≤ s)
    (hre : ∀ q ∈ rIv, e + 2 ≤ q.1)
    (hvl : ∀ p ∈ lIv, p.1 ≤ p.2)
    (hse : s ≤ e)
    (h1 : ¬en < s - 1) (h2 : en ≤ e) :
    GteSpecL (lIv ++ (s, e) :: rIv) en rIv e := by
  refine ⟨h2, ?_, ?_, ?_, ?_⟩
  · rw [List.filter_append, List.filter_cons]
    have hkeepr : ∀ q ∈ rIv, (decide (e + 2 ≤ q.1)) = true := by
      intro q hq
      simpa using hre q hq
    rw [filter_eq_self_of_all hkeepr]
    have h3 : (decide (e + 2 ≤ s)) = false := by
      simp only [decide_eq_false_iff_not]
      omega
    have hdropl : lIv.filter (fun p => decide (e + 2 ≤ p.1)) = [] := by
      apply filter_eq_nil_of_none
      intro p hp
      have h4 := hls p hp
      have h5 := hvl p hp
      simp only [decide_eq_false_iff_not]
      omega
    simp [h3, hdropl]
  · intro q hq hnq
    simp only [List.mem_append, List.mem_cons] at hq
    rcases hq with hq | rfl | hq
    · have := hls q hq
      omega
    · exact le_refl _
    · have := hre q hq
      omega
  · intro i hi1 hi2
    rw [coversL_append, coversL_cons]
    exact Or.inr (Or.inl ⟨by omega, hi2⟩)
  · exact Or.inr ⟨(s, e), by simp, rfl⟩

/-- Branch of the high push-down that descends right: en lies strictly
above e, so this node and its whole left part are dropped into the merged
interval. -/
theorem GteSpecL_drop {lIv rIv vIv : List (Int × Int)} {s e en b : Int}
    (hls : ∀ p ∈ lIv, p.2 + 2 ≤ s)
    (hvl : ∀ p ∈ lIv, p.1 ≤ p.2)
    (hse : s ≤ e)
    (h2 : ¬en ≤ e)
    (IH : GteSpecL rIv en vIv b) :
    GteSpecL (lIv ++ (s, e) :: rIv) en vIv b := by
  obtain ⟨ih1, ih2, ih3, ih4, ih5⟩ := IH
  push_neg at h2
  refine ⟨ih1, ?_, ?_, ?_, ?_⟩
  · rw [List.filter_append, List.filter_cons]
    have h3 : (decide (b + 2 ≤ s)) = false := by
      simp only [decide_eq_false_iff_not]
      omega
    have hdropl : lIv.filter (fun p => decide (b + 2 ≤ p.1)) = [] := by
      apply filter_eq_nil_of_none
      intro p hp
      have h4 := hls p hp
      have h5 := hvl p hp
      simp only [decide_eq_false_iff_not]
      omega
    simp [h3, hdropl, ih2]
  · intro q hq hnq
    simp only [List.mem_append, List.mem_cons] at hq
    rcases hq with hq | rfl | hq
    · have := hls q hq
      have := hvl q hq
      omega
    · omega
    · exact ih3 q hq hnq
  · intro i hi1 hi2
    rw [coversL_append, coversL_cons]
    exact Or.inr (Or.inr (ih4 i hi1 hi2))
  · rcases ih5 with h | ⟨q, hq, h⟩
    · exact Or.inl h
    · exact Or.inr ⟨q, by simp [hq], h⟩

/-- The trivial low push-down outcome on an empty piece. -/
theorem LteSpecL_nil (start : Int) : LteSpecL [] start [] start := by
  refine ⟨le_refl _, rfl, by simp, ?_, Or.inl rfl⟩
  intro i h1 h2
  omega

/-- The trivial high push-down outcome on an empty piece. -/
theorem GteSpecL_nil (en : Int) : GteSpecL [] en [] en := by
  refine ⟨le_refl _, rfl, by simp, ?_, Or.inl rfl⟩
  intro i h1 h2
  omega

namespace Diet

/-- LteSpecL applied to the components of a less_than_or_equal result. -/
def LteSpec (ivs : List (Int × Int)) (low : Int)
    (res : Tree × Int × List Blit) : Prop :=
  LteSpecL ivs low res.1.intervals res.2.1

/-- GteSpecL applied to the components of a greater_than_or_equal result. -/
def GteSpec (ivs : List (Int × Int)) (high : Int)
    (res : Tree × Int × List Blit) : Prop :=
  GteSpecL ivs high res.1.intervals res.2.1

theorem lte_spec (t : Tree) (low : Int) :
    ∀ bl bh : Int, OkL t.intervals →
    LteSpec t.intervals low (less_than_or_equal t low bl bh) := by
  induction t with
  | leaf =>
    intro bl bh _
    dsimp only [less_than_or_equal, LteSpec, Tree.intervals]
    exact LteSpecL_nil low
  | node s e l r ihl ihr =>
    intro bl bh hok
    obtain ⟨hokl, hokr, hse, hls, hre⟩ := OkL_node (l := l.intervals)
      (r := r.intervals) (by simpa [Tree.intervals] using hok)
    simp only [less_than_or_equal]
    split_ifs with h1 h2 h3
    · have IH := ihr (e + 1) bl hokr
      dsimp only [LteSpec] at IH ⊢
      have hmin : min low (less_than_or_equal r low (e + 1) bl).2.1
          = (less_than_or_equal r low (e + 1) bl).2.1 := min_eq_right IH.1
      rw [hmin]
      dsimp only [Tree.intervals]
      exact LteSpecL_keep hls hre hse h1 IH
    · dsimp only [LteSpec, Tree.intervals]
      exact LteSpecL_found hls hre hokr.1 hse h1 h2
    · have IH := ihl bl (s - 1) hokl
      dsimp only [LteSpec] at IH ⊢
      dsimp only [Tree.intervals]
      exact LteSpecL_drop hre hokr.1 hse h2 IH
    · have IH := ihl bl (s - 1) hokl
      dsimp only [LteSpec] at IH ⊢
      dsimp only [Tree.intervals]
      exact LteSpecL_drop hre hokr.1 hse h2 IH

theorem gte_spec (t : Tree) (high : Int) :
    ∀ bl bh : Int, OkL t.intervals →
    GteSpec t.intervals high (greater_than_or_equal t high bl bh) := by
  induction t with
  | leaf =>
    intro bl bh _
    dsimp only [greater_than_or_equal, GteSpec, Tree.intervals]
    exact GteSpecL_nil high
  | node s e l r ihl ihr =>
    intro bl bh hok
    obtain ⟨hokl, hokr, hse, hls, hre⟩ := OkL_node (l := l.intervals)
      (r := r.intervals) (by simpa [Tree.intervals] using hok)
    simp only [greater_than_or_equal]
    split_ifs with h1 h2 h3
    · have IH := ihl bh (s - 1) hokl
      dsimp only [GteSpec] at IH ⊢
      have hmax : max high (greater_than_or_equal l high bh (s - 1)).2.1
          = (greater_than_or_equal l high bh (s - 1)).2.1 := max_eq_right IH.1
      rw [hmax]
      dsimp only [Tree.intervals]
      exact GteSpecL_keep hls hre hse h1 IH
    · dsimp only [GteSpec, Tree.intervals]
      exact GteSpecL_found hls hre hokl.1 hse h1 h2
    · have IH := ihr (e + 1) bh hokr
      dsimp only [GteSpec] at IH ⊢
      dsimp only [Tree.intervals]
      exact GteSpecL_drop hls hokl.1 hse h2 IH
    · have IH := ihr (e + 1) bh hokr
      dsimp only [GteSpec] at IH ⊢
      dsimp only [Tree.intervals]
      exact GteSpecL_drop hls hokl.1 hse h2 IH

/-- Result specification of one insert_range call: the output tree satisfies
the isolation invariant and covers exactly the old set plus [low, high]. -/
def InsOut (tIv : List (Int × Int)) (low high : Int)
    (res : Tree × List Blit) : Prop :=
  InsOutL tIv low high res.1.intervals

end Diet

/-- The already-contained branch of a DIET insert leaves the set unchanged. -/
theorem spec_contained {lIv rIv : List (Int × Int)} {s e low high : Int}
    (hok : OkL (lIv ++ (s, e) :: rIv))
    (h1 : low ≥ s) (h2 : high ≤ e) :
    InsOutL (lIv ++ (s, e) :: rIv) low high (lIv ++ (s, e) :: rIv) := by
  refine ⟨hok, fun i => ⟨Or.inl, ?_⟩⟩
  rintro (h | ⟨hl, hh⟩)
  · exact h
  · rw [coversL_append, coversL_cons]
    exact Or.inr (Or.inl ⟨by omega, by omega⟩)

/-- The meeting branch of a DIET insert: the node interval is replaced by
[a, b] computed by the two endpoint push-downs, and the pruned inorder
pieces are kept. -/
theorem spec_meet {uIv vIv lIv rIv : List (Int × Int)}
    {s e low high a b m M : Int}
    (hse : s ≤ e) (hlh : low ≤ high)
    (hls : ∀ p ∈ lIv, p.2 + 2 ≤ s)
    (hre : ∀ q ∈ rIv, e + 2 ≤ q.1)
    (hokl : OkL lIv) (hokr : OkL rIv)
    (hm1 : m ≤ s) (hm2 : m ≤ low) (hM1 : e ≤ M) (hM2 : high ≤ M)
    (hL : LteSpecL lIv m uIv a)
    (hR : GteSpecL rIv M vIv b)
    (hcont : ∀ i : Int, m ≤ i → i ≤ M →
      (s ≤ i ∧ i ≤ e) ∨ (low ≤ i ∧ i ≤ high)) :
    InsOutL (lIv ++ (s, e) :: rIv) low high (uIv ++ (a, b) :: vIv) := by
  obtain ⟨hL1, hL2, hL3, hL4, hL5⟩ := hL
  obtain ⟨hR1, hR2, hR3, hR4, hR5⟩ := hR
  have hab : a ≤ b := by omega
  constructor
  · refine OkL_glue ?_ ?_ hab ?_ ?_
    · rw [hL2]; exact OkL_filter _ hokl
    · rw [hR2]; exact OkL_filter _ hokr
    · intro p hp
      rw [hL2, List.mem_filter] at hp
      simpa using hp.2
    · intro q hq
      rw [hR2, List.mem_filter] at hq
      simpa using hq.2
  · intro i
    rw [coversL_append, coversL_cons, coversL_append, coversL_cons]
    constructor
    · rintro (hc | ⟨hai, hib⟩ | hc)
      · exact Or.inl (Or.inl (coversL_sublist (hL2 ▸ List.filter_sublist _) hc))
      · by_cases hlt : i < m
        · exact Or.inl (Or.inl (hL4 i hai hlt))
        · by_cases hgt : M < i
          · exact Or.inl (Or.inr (Or.inr (hR4 i hgt hib)))
          · rcases hcont i (by omega) (by omega) with h | h
            · exact Or.inl (Or.inr (Or.inl h))
            · exact Or.inr h
      · exact Or.inl (Or.inr (Or.inr (coversL_sublist
          (hR2 ▸ List.filter_sublist _) hc)))
    · rintro ((hc | ⟨hsi, hie⟩ | hc) | ⟨hli, hih⟩)
      · obtain ⟨p, hp, hp1, hp2⟩ := hc
        by_cases hkeep : p.2 + 2 ≤ a
        · refine Or.inl ⟨p, ?_, hp1, hp2⟩
          rw [hL2, List.mem_filter]
          simpa [hp] using hkeep
        · have h3 := hL3 p hp hkeep
          have h4 := hls p hp
          exact Or.inr (Or.inl ⟨by omega, by omega⟩)
      · exact Or.inr (Or.inl ⟨by omega, by omega⟩)
      · obtain ⟨q, hq, hq1, hq2⟩ := hc
        by_cases hkeep : b + 2 ≤ q.1
        · refine Or.inr (Or.inr ⟨q, ?_, hq1, hq2⟩)
          rw [hR2, List.mem_filter]
          simpa [hq] using hkeep
        · have h3 := hR3 q hq hkeep
          have h4 := hre q hq
          exact Or.inr (Or.inl ⟨by omega, by omega⟩)
      · exact Or.inr (Or.inl ⟨by omega, by omega⟩)

/-- The disjoint branch of a DIET insert descending into the right piece. -/
theorem spec_graft_right {lIv vIv rIv : List (Int × Int)}
    {s e low high : Int}
    (hokl : OkL lIv) (hse : s ≤ e) (hlh : low ≤ high)
    (hls : ∀ p ∈ lIv, p.2 + 2 ≤ s)
    (hre : ∀ q ∈ rIv, e + 2 ≤ q.1)
    (hge : e + 2 ≤ low)
    (hv : InsOutL rIv low high vIv) :
    InsOutL (lIv ++ (s, e) :: rIv) low high (lIv ++ (s, e) :: vIv) := by
  obtain ⟨hvok, hvcov⟩ := hv
  constructor
  · refine OkL_glue hokl hvok hse hls ?_
    intro q hq
    have hq1 : coversL vIv q.1 := ⟨q, hq, le_refl _, hvok.1 q hq⟩
    rcases (hvcov q.1).1 hq1 with h | h
    · exact coversL_lower hre h
    · omega
  · intro i
    rw [coversL_append, coversL_cons, coversL_append, coversL_cons]
    have hv2 := hvcov i
    constructor
    · rintro (hc | h | hc)
      · exact Or.inl (Or.inl hc)
      · exact Or.inl (Or.inr (Or.inl h))
      · rcases hv2.1 hc with h | h
        · exact Or.inl (Or.inr (Or.inr h))
        · exact Or.inr h
    · rintro ((hc | h | hc) | h)
      · exact Or.inl hc
      · exact Or.inr (Or.inl h)
      · exact Or.inr (Or.inr (hv2.2 (Or.inl hc)))
      · exact Or.inr (Or.inr (hv2.2 (Or.inr h)))

/-- The disjoint branch of a DIET insert descending into the left piece. -/
theorem spec_graft_left {uIv lIv rIv : List (Int × Int)}
    {s e low high : Int}
    (hokr : OkL rIv) (hse : s ≤ e) (hlh : low ≤ high)
    (hls : ∀ p ∈ lIv, p.2 + 2 ≤ s)
    (hre : ∀ q ∈ rIv, e + 2 ≤ q.1)
    (hle : high + 2 ≤ s)
    (hu : InsOutL lIv low high uIv) :
    InsOutL (lIv ++ (s, e) :: rIv) low high (uIv ++ (s, e) :: rIv) := by
  obtain ⟨huok, hucov⟩ := hu
  constructor
  · refine OkL_glue huok hokr hse ?_ hre
    intro p hp
    have hp2 : coversL uIv p.2 := ⟨p, hp, huok.1 p hp, le_refl _⟩
    rcases (hucov p.2).1 hp2 with h | h
    · have h5 : p.2 ≤ s - 2 :=
        coversL_upper (fun q hq => by have := hls q hq; omega) h
      omega
    · omega
  · intro i
    rw [coversL_append, coversL_cons, coversL_append, coversL_cons]
    have hu2 := hucov i
    constructor
    · rintro (hc | h | hc)
      · rcases hu2.1 hc with h | h
        · exact Or.inl (Or.inl h)
        · exact Or.inr h
      · exact Or.inl (Or.inr (Or.inl h))
      · exact Or.inl (Or.inr (Or.inr hc))
    · rintro ((hc | h | hc) | h)
      · exact Or.inl (hu2.2 (Or.inl hc))
      · exact Or.inr (Or.inl h)
      · exact Or.inr (Or.inr hc)
      · exact Or.inl (hu2.2 (Or.inr h))

namespace Diet

/-- Main structural theorem for diet.c insert_range: under the isolation
invariant and low ≤ high, the result again satisfies the invariant and
covers exactly the union of the previous set and [low, high]. -/
theorem insert_range_spec (t : Tree) (low high : Int) (hlh : low ≤ high)
    (hok : OkL t.intervals) :
    InsOut t.intervals low high (insert_range t low high) := by
  induction t with
  | leaf =>
    refine ⟨⟨?_, ?_⟩, ?_⟩
    · intro p hp
      simp only [insert_range, Tree.intervals] at hp
      simp at hp
      simp [hp, hlh]
    · simp [insert_range, Tree.intervals]
    · intro i
      simp [insert_range, Tree.intervals, coversL_cons, coversL_nil]
  | node s e l r ihl ihr =>
    obtain ⟨hokl, hokr, hse, hls, hre⟩ := OkL_node (l := l.intervals)
      (r := r.intervals) (by simpa [Tree.intervals] using hok)
    by_cases hsl : s < low
    · simp only [insert_range, hsl, if_true, ite_true, eq_self_iff_true, and_self]
      by_cases hov : e ≥ low ∨ e + 1 = low
      · rw [if_pos hov]
        by_cases hcon : low ≥ s ∧ high ≤ e
        · rw [if_pos hcon]
          exact spec_contained (by simpa [Tree.intervals] using hok) hcon.1 hcon.2
        · rw [if_neg hcon]
          have hcov : ∀ i : Int, s ≤ i → i ≤ max e high →
              (s ≤ i ∧ i ≤ e) ∨ (low ≤ i ∧ i ≤ high) := by
            intro i h1 h2
            have h3 := le_max_iff.1 h2
            omega
          exact spec_meet hse hlh hls hre hokl hokr (le_refl s) (le_of_lt hsl)
            (le_max_left e high) (le_max_right e high)
            (lte_spec l s _ _ hokl) (gte_spec r (max e high) _ _ hokr) hcov
      · rw [if_neg hov]
        exact spec_graft_right hokl hse hlh hls hre (by omega) (ihr hokr)
    · simp only [insert_range, hsl, if_false, ite_false]
      by_cases hov : high ≥ s ∨ high + 1 = s
      · rw [if_pos hov]
        by_cases hcon : low ≥ s ∧ high ≤ e
        · rw [if_pos hcon]
          exact spec_contained (by simpa [Tree.intervals] using hok) hcon.1 hcon.2
        · rw [if_neg hcon]
          have hcov : ∀ i : Int, low ≤ i → i ≤ max high e →
              (s ≤ i ∧ i ≤ e) ∨ (low ≤ i ∧ i ≤ high) := by
            intro i h1 h2
            have h3 := le_max_iff.1 h2
            omega
          exact spec_meet hse hlh hls hre hokl hokr (by omega) (le_refl low)
            (le_max_right high e) (le_max_left high e)
            (lte_spec l low _ _ hokl) (gte_spec r (max high e) _ _ hokr) hcov
      · rw [if_neg hov]
        by_cases heq : low = s ∧ high = e
        · exact absurd (by omega : high ≥ s ∨ high + 1 = s) hov
        · rw [if_neg heq]
          exact spec_graft_left hokr hse hlh hls hre (by omega) (ihl hokl)

end Diet

namespace Diet3

/-- All stored height fields are at least 1.  Every node built by the
diet3.c code has this, and it rules out the err("Node.balance") aborts. -/
def posOk : Tree → Prop
  | Tree.leaf => True
  | Tree.node _ _ h l r => 1 ≤ h ∧ posOk l ∧ posOk r

theorem height_leaf : height Tree.leaf = 0 := rfl

theorem height_node {s e h : Int} {l r : Tree} :
    height (Tree.node s e h l r) = h := rfl

theorem posOk_height {t : Tree} (hp : posOk t) : 0 ≤ height t := by
  cases t with
  | leaf => simp [height_leaf]
  | node s e h l r =>
    have := hp.1
    rw [height_node]
    omega

theorem posOk_create {s e : Int} {l r : Tree} (hl : posOk l) (hr : posOk r) :
    posOk (create s e l r) := by
  refine ⟨?_, hl, hr⟩
  have h1 := posOk_height hl
  have h2 := le_max_left (height l) (height r)
  simp only [height_join]
  omega

theorem intervals_create {s e : Int} {l r : Tree} :
    (create s e l r).intervals = l.intervals ++ (s, e) :: r.intervals := rfl

theorem posOk_balance {s e : Int} {l r : Tree} (hl : posOk l) (hr : posOk r) :
    posOk (balance s e l r) := by
  unfold balance
  dsimp only
  split_ifs with h1 h2 h3
  · cases l with
    | leaf => trivial
    | node ls ls2 lh ll lr =>
      obtain ⟨hx, hll, hlr⟩ := hl
      dsimp only
      split_ifs with h4
      · exact posOk_create hll (posOk_create hlr hr)
      · cases lr with
        | leaf => trivial
        | node lrs lrs2 lrh lrl lrr =>
          obtain ⟨hy, hlrl, hlrr⟩ := hlr
          exact posOk_create (posOk_create hll hlrl) (posOk_create hlrr hr)
  · cases r with
    | leaf => trivial
    | node rs rs2 rh rl rr =>
      obtain ⟨hx, hrl, hrr⟩ := hr
      dsimp only
      split_ifs with h4
      · exact posOk_create (posOk_create hl hrl) hrr
      · cases rl with
        | leaf => trivial
        | node rls rls2 rlh rll rlr =>
          obtain ⟨hy, hrll, hrlr⟩ := hrl
          exact posOk_create (posOk_create hl hrll) (posOk_create hrlr hrr)
  · have := posOk_height hl
    exact ⟨by omega, hl, hr⟩
  · have := posOk_height hr
    exact ⟨by omega, hl, hr⟩

theorem intervals_balance {s e : Int} {l r : Tree}
    (hl : posOk l) (hr : posOk r) :
    (balance s e l r).intervals = l.intervals ++ (s, e) :: r.intervals := by
  unfold balance
  dsimp only
  split_ifs with h1 h2 h3
  · cases l with
    | leaf =>
      exfalso
      have := posOk_height hr
      simp only [height_leaf, bal_const] at h1
      omega
    | node ls ls2 lh ll lr =>
      obtain ⟨hx, hll, hlr⟩ := hl
      dsimp only
      split_ifs with h4
      · simp [create, Tree.intervals, List.append_assoc]
      · cases lr with
        | leaf =>
          exfalso
          have := posOk_height hll
          simp only [height_leaf] at h4
          omega
        | node lrs lrs2 lrh lrl lrr =>
          simp [create, Tree.intervals, List.append_assoc]
  · cases r with
    | leaf =>
      exfalso
      have := posOk_height hl
      simp only [height_leaf, bal_const] at h2
      omega
    | node rs rs2 rh rl rr =>
      obtain ⟨hx, hrl, hrr⟩ := hr
      dsimp only
      split_ifs with h4
      · simp [create, Tree.intervals, List.append_assoc]
      · cases rl with
        | leaf =>
          exfalso
          have := posOk_height hrr
          simp only [height_leaf] at h4
          omega
        | node rls rls2 rlh rll rlr =>
          simp [create, Tree.intervals, List.append_assoc]
  · simp [Tree.intervals]
  · simp [Tree.intervals]

theorem posOk_add : ∀ (t : Tree) (goLeft : Bool) (s e : Int), posOk t →
    posOk (add t goLeft s e) := by
  intro t
  induction t with
  | leaf =>
    intro goLeft s e _
    exact ⟨le_refl 1, trivial, trivial⟩
  | node ts te th tl tr ihl ihr =>
    intro goLeft s e hp
    obtain ⟨h1, h2, h3⟩ := hp
    cases goLeft
    · rw [show add (Tree.node ts te th tl tr) false s e
          = balance ts te tl (add tr false s e) from by simp [add]]
      exact posOk_balance h2 (ihr false s e h3)
    · rw [show add (Tree.node ts te th tl tr) true s e
          = balance ts te (add tl true s e) tr from by simp [add]]
      exact posOk_balance (ihl true s e h2) h3

theorem intervals_add : ∀ (t : Tree) (goLeft : Bool) (s e : Int), posOk t →
    (add t goLeft s e).intervals
      = if goLeft then (s, e) :: t.intervals else t.intervals ++ [(s, e)] := by
  intro t
  induction t with
  | leaf =>
    intro goLeft s e _
    cases goLeft <;> simp [add, Tree.intervals]
  | node ts te th tl tr ihl ihr =>
    intro goLeft s e hp
    obtain ⟨h1, h2, h3⟩ := hp
    cases goLeft
    · rw [show add (Tree.node ts te th tl tr) false s e
          = balance ts te tl (add tr false s e) from by simp [add]]
      rw [intervals_balance h2 (posOk_add tr false s e h3), ihr false s e h3]
      simp [Tree.intervals, List.append_assoc]
    · rw [show add (Tree.node ts te th tl tr) true s e
          = balance ts te (add tl true s e) tr from by simp [add]]
      rw [intervals_balance (posOk_add tl true s e h2) h3, ihl true s e h2]
      simp [Tree.intervals]

theorem join_spec : ∀ (n : Nat) (s e : Int) (l r : Tree),
    size l + size r ≤ n → posOk l → posOk r →
    posOk (join s e l r) ∧
    (join s e l r).intervals = l.intervals ++ (s, e) :: r.intervals := by
  intro n
  induction n with
  | zero =>
    intro s e l r hsz hl hr
    cases l with
    | node ls ls2 lh ll lr =>
      exfalso
      simp only [size] at hsz
      omega
    | leaf =>
      rw [show join s e Tree.leaf r = add r true s e from by simp [join]]
      exact ⟨posOk_add r true s e hr, by
        rw [intervals_add r true s e hr]
        simp [Tree.intervals]⟩
  | succ n ih =>
    intro s e l r hsz hl hr
    cases l with
    | leaf =>
      rw [show join s e Tree.leaf r = add r true s e from by simp [join]]
      exact ⟨posOk_add r true s e hr, by
        rw [intervals_add r true s e hr]
        simp [Tree.intervals]⟩
    | node ls ls2 lh ll lr =>
      cases r with
      | leaf =>
        rw [show join s e (Tree.node ls ls2 lh ll lr) Tree.leaf
            = add (Tree.node ls ls2 lh ll lr) false s e from by simp [join]]
        exact ⟨posOk_add _ false s e hl, by
          rw [intervals_add _ false s e hl]
          simp [Tree.intervals]⟩
      | node rs rs2 rh rl rr =>
        rw [show join s e (Tree.node ls ls2 lh ll lr) (Tree.node rs rs2 rh rl rr)
            = if lh > rh + bal_const then
                balance ls ls2 ll (join s e lr (Tree.node rs rs2 rh rl rr))
              else if rh > lh + bal_const then
                balance rs rs2 (join s e (Tree.node ls ls2 lh ll lr) rl) rr
              else
                create s e (Tree.node ls ls2 lh ll lr) (Tree.node rs rs2 rh rl rr)
            from by rw [join]]
        split_ifs with h1 h2
        · obtain ⟨hx, hll, hlr⟩ := hl
          have hrec := ih s e lr (Tree.node rs rs2 rh rl rr)
            (by simp [size] at hsz ⊢; omega) hlr hr
          refine ⟨posOk_balance hll hrec.1, ?_⟩
          rw [intervals_balance hll hrec.1, hrec.2]
          simp [Tree.intervals, List.append_assoc]
        · obtain ⟨hx, hrl, hrr⟩ := hr
          have hrec := ih s e (Tree.node ls ls2 lh ll lr) rl
            (by simp [size] at hsz ⊢; omega) hl hrl
          refine ⟨posOk_balance hrec.1 hrr, ?_⟩
          rw [intervals_balance hrec.1 hrr, hrec.2]
          simp [Tree.intervals, List.append_assoc]
        · exact ⟨posOk_create hl hr, by simp [create, Tree.intervals]⟩

theorem posOk_join {s e : Int} {l r : Tree} (hl : posOk l) (hr : posOk r) :
    posOk (join s e l r) :=
  (join_spec (size l + size r) s e l r (le_refl _) hl hr).1

theorem intervals_join {s e : Int} {l r : Tree} (hl : posOk l) (hr : posOk r) :
    (join s e l r).intervals = l.intervals ++ (s, e) :: r.intervals :=
  (join_spec (size l + size r) s e l r (le_refl _) hl hr).2

/-- Specification of find_del_left: the returned pair (outs, outl) obeys the
low push-down specification, the surviving subtree has positive heights,
and at least one blit call is emitted. -/
def FdlSpec (ivs : List (Int × Int)) (start : Int)
    (res : Int × Tree × List Blit) : Prop :=
  LteSpecL ivs start res.2.1.intervals res.1 ∧ posOk res.2.1 ∧ res.2.2 ≠ []

/-- Specification of find_del_right, mirror image of FdlSpec. -/
def FdrSpec (ivs : List (Int × Int)) (en : Int)
    (res : Int × Tree × List Blit) : Prop :=
  GteSpecL ivs en res.2.1.intervals res.1 ∧ posOk res.2.1 ∧ res.2.2 ≠ []

theorem fdl_spec (start dbe : Int) : ∀ t : Tree, OkL t.intervals → posOk t →
    FdlSpec t.intervals start (find_del_left t start dbe) := by
  intro t
  induction t with
  | leaf =>
    intro _ _
    dsimp only [find_del_left, FdlSpec, Tree.intervals]
    exact ⟨LteSpecL_nil start, trivial, by simp⟩
  | node s e h l r ihl ihr =>
    intro hok hp
    obtain ⟨hokl, hokr, hse, hls, hre⟩ := OkL_node (l := l.intervals)
      (r := r.intervals) (by simpa [Tree.intervals] using hok)
    obtain ⟨hx, hpl, hpr⟩ := hp
    simp only [find_del_left]
    split_ifs with h1 h2
    · obtain ⟨IH1, IH2, IH3⟩ := ihr hokr hpr
      dsimp only [FdlSpec] at IH1 IH2 IH3 ⊢
      refine ⟨?_, posOk_join hpl IH2, IH3⟩
      rw [intervals_join hpl IH2]
      dsimp only [Tree.intervals]
      exact LteSpecL_keep hls hre hse h1 IH1
    · obtain ⟨IH1, IH2, IH3⟩ := ihl hokl hpl
      dsimp only [FdlSpec] at IH1 IH2 IH3 ⊢
      refine ⟨?_, IH2, IH3⟩
      dsimp only [Tree.intervals]
      exact LteSpecL_drop hre hokr.1 hse (by omega) IH1
    · dsimp only [FdlSpec, Tree.intervals]
      exact ⟨LteSpecL_found hls hre hokr.1 hse h1 (by omega), hpl, by simp⟩

theorem fdr_spec (en dbs : Int) : ∀ t : Tree, OkL t.intervals → posOk t →
    FdrSpec t.intervals en (find_del_right t en dbs) := by
  intro t
  induction t with
  | leaf =>
    intro _ _
    dsimp only [find_del_right, FdrSpec, Tree.intervals]
    exact ⟨GteSpecL_nil en, trivial, by simp⟩
  | node s e h l r ihl ihr =>
    intro hok hp
    obtain ⟨hokl, hokr, hse, hls, hre⟩ := OkL_node (l := l.intervals)
      (r := r.intervals) (by simpa [Tree.intervals] using hok)
    obtain ⟨hx, hpl, hpr⟩ := hp
    simp only [find_del_right]
    split_ifs with h1 h2
    · obtain ⟨IH1, IH2, IH3⟩ := ihl hokl hpl
      dsimp only [FdrSpec] at IH1 IH2 IH3 ⊢
      refine ⟨?_, posOk_join IH2 hpr, IH3⟩
      rw [intervals_join IH2 hpr]
      dsimp only [Tree.intervals]
      exact GteSpecL_keep hls hre hse h1 IH1
    · obtain ⟨IH1, IH2, IH3⟩ := ihr hokr hpr
      dsimp only [FdrSpec] at IH1 IH2 IH3 ⊢
      refine ⟨?_, IH2, IH3⟩
      dsimp only [Tree.intervals]
      exact GteSpecL_drop hls hokl.1 hse (by omega) IH1
    · dsimp only [FdrSpec, Tree.intervals]
      exact ⟨GteSpecL_found hls hre hokl.1 hse h1 (by omega), hpr, by simp⟩

/-- The trivial low push-down on an untouched left piece (start ≥ s). -/
theorem LteSpecL_self {lIv : List (Int × Int)} {s : Int}
    (hls : ∀ p ∈ lIv, p.2 + 2 ≤ s) :
    LteSpecL lIv s lIv s := by
  refine ⟨le_refl _, ?_, ?_, ?_, Or.inl rfl⟩
  · exact (filter_eq_self_of_all fun p hp => by simpa using hls p hp).symm
  · intro p hp hnp
    exact absurd (hls p hp) (by omega)
  · intro i h1 h2
    omega

/-- The trivial high push-down on an untouched right piece (en ≤ e). -/
theorem GteSpecL_self {rIv : List (Int × Int)} {e : Int}
    (hre : ∀ q ∈ rIv, e + 2 ≤ q.1) :
    GteSpecL rIv e rIv e := by
  refine ⟨le_refl _, ?_, ?_, ?_, Or.inl rfl⟩
  · exact (filter_eq_self_of_all fun q hq => by simpa using hre q hq).symm
  · intro q hq hnq
    exact absurd (hre q hq) (by omega)
  · intro i h1 h2
    omega

/-- Result specification of one diet3.c insert_range call. -/
def Ins3Out (tIv : List (Int × Int)) (low high : Int)
    (res : Tree × List Blit) : Prop :=
  InsOutL tIv low high res.1.intervals ∧ posOk res.1

/-- Main structural theorem for diet3.c insert_range: under the isolation
invariant, positive stored heights, and start ≤ end, the result satisfies
the invariants and covers exactly the union of the previous set and
[start, end]. -/
theorem insert_range3_spec (start en : Int) (hlh : start ≤ en) :
    ∀ t : Tree, OkL t.intervals → posOk t →
    Ins3Out t.intervals start en (insert_range t start en) := by
  intro t
  induction t with
  | leaf =>
    intro _ _
    refine ⟨⟨⟨?_, ?_⟩, ?_⟩, ?_⟩
    · intro p hp
      simp only [insert_range, Tree.intervals] at hp
      simp at hp
      simp [hp, hlh]
    · simp [insert_range, Tree.intervals]
    · intro i
      simp [insert_range, Tree.intervals, coversL_cons, coversL_nil]
    · exact ⟨le_refl 1, trivial, trivial⟩
  | node s e h l r ihl ihr =>
    intro hok hp
    obtain ⟨hokl, hokr, hse, hls, hre⟩ := OkL_node (l := l.intervals)
      (r := r.intervals) (by simpa [Tree.intervals] using hok)
    obtain ⟨hx, hpl, hpr⟩ := hp
    simp only [insert_range]
    by_cases h1 : en < s - 1
    · -- en < s - 1 : graft into the left subtree, then rejoin
      rw [if_pos h1]
      obtain ⟨IHo, IHp⟩ := ihl hokl hpl
      refine ⟨?_, posOk_join IHp hpr⟩
      show InsOutL (Tree.node s e h l r).intervals start en
        (join s e (insert_range l start en).1 r).intervals
      rw [intervals_join IHp hpr]
      dsimp only [Tree.intervals]
      exact spec_graft_left hokr hse hlh hls hre (by omega) IHo
    · rw [if_neg h1]
      by_cases h2 : start > e + 1
      · -- start > e + 1 : graft into the right subtree, then rejoin
        rw [if_pos h2]
        obtain ⟨IHo, IHp⟩ := ihr hokr hpr
        refine ⟨?_, posOk_join hpl IHp⟩
        show InsOutL (Tree.node s e h l r).intervals start en
          (join s e l (insert_range r start en).1).intervals
        rw [intervals_join hpl IHp]
        dsimp only [Tree.intervals]
        exact spec_graft_right hokl hse hlh hls hre (by omega) IHo
      · -- the inserted range meets [s, e]
        rw [if_neg h2]
        by_cases hgs : start ≥ s
        · rw [if_pos hgs]
          by_cases hle : en ≤ e
          · -- fully contained
            rw [if_pos hle]
            refine ⟨?_, posOk_join hpl hpr⟩
            show InsOutL (Tree.node s e h l r).intervals start en
              (join s e l r).intervals
            rw [intervals_join hpl hpr]
            dsimp only [Tree.intervals]
            exact spec_contained (by simpa [Tree.intervals] using hok) hgs hle
          · -- keep s, push en into the right subtree
            rw [if_neg hle]
            obtain ⟨R1, R2, R3⟩ := fdr_spec en (e + 1) r hokr hpr
            refine ⟨?_, posOk_join hpl R2⟩
            show InsOutL (Tree.node s e h l r).intervals start en
              (join s (find_del_right r en (e + 1)).1 l
                (find_del_right r en (e + 1)).2.1).intervals
            rw [intervals_join hpl R2]
            dsimp only [Tree.intervals]
            refine spec_meet hse hlh hls hre hokl hokr (le_refl s) hgs
              (by omega) (le_refl en) (LteSpecL_self hls) R1 ?_
            intro i hi1 hi2
            omega
        · rw [if_neg hgs]
          by_cases hle : en ≤ e
          · -- push start into the left subtree, keep e
            rw [if_pos hle]
            obtain ⟨L1, L2, L3⟩ := fdl_spec start (s - 1) l hokl hpl
            refine ⟨?_, posOk_join L2 hpr⟩
            show InsOutL (Tree.node s e h l r).intervals start en
              (join (find_del_left l start (s - 1)).1 e
                (find_del_left l start (s - 1)).2.1 r).intervals
            rw [intervals_join L2 hpr]
            dsimp only [Tree.intervals]
            refine spec_meet hse hlh hls hre hokl hokr (by omega) (le_refl start)
              (le_refl e) hle L1 (GteSpecL_self hre) ?_
            intro i hi1 hi2
            omega
          · -- push both endpoints outward
            rw [if_neg hle]
            obtain ⟨L1, L2, L3⟩ := fdl_spec start (s - 1) l hokl hpl
            obtain ⟨R1, R2, R3⟩ := fdr_spec en (e + 1) r hokr hpr
            refine ⟨?_, posOk_join L2 R2⟩
            show InsOutL (Tree.node s e h l r).intervals start en
              (join (find_del_left l start (s - 1)).1
                (find_del_right r en (e + 1)).1
                (find_del_left l start (s - 1)).2.1
                (find_del_right r en (e + 1)).2.1).intervals
            rw [intervals_join L2 R2]
            dsimp only [Tree.intervals]
            refine spec_meet hse hlh hls hre hokl hokr (by omega) (le_refl start)
              (by omega) (le_refl en) L1 R1 ?_
            intro i hi1 hi2
            omega

end Diet3

/-- Folding diet.c inserts keeps the invariant and accumulates coverage. -/
theorem du_fold_spec : ∀ (ops : List (Int × Int)) (t : Diet.Tree),
    (∀ p ∈ ops, p.1 ≤ p.2) → OkL t.intervals →
    OkL (ops.foldl (fun u p => (Diet.insert_range u p.1 p.2).1) t).intervals ∧
    ∀ i : Int,
      coversL (ops.foldl (fun u p => (Diet.insert_range u p.1 p.2).1) t).intervals i
        ↔ (coversL t.intervals i ∨ ∃ p ∈ ops, p.1 ≤ i ∧ i ≤ p.2) := by
  intro ops
  induction ops with
  | nil =>
    intro t _ hok
    exact ⟨hok, fun i => by simp⟩
  | cons p ps ih =>
    intro t hops hok
    obtain ⟨h1, h2⟩ := Diet.insert_range_spec t p.1 p.2
      (hops p (by simp)) hok
    obtain ⟨g1, g2⟩ := ih (Diet.insert_range t p.1 p.2).1
      (fun q hq => hops q (by simp [hq])) h1
    refine ⟨g1, fun i => ?_⟩
    rw [List.foldl_cons, g2 i, h2 i]
    constructor
    · rintro ((hc | hp) | ⟨q, hq, hb⟩)
      · exact Or.inl hc
      · exact Or.inr ⟨p, by simp, hp⟩
      · exact Or.inr ⟨q, by simp [hq], hb⟩
    · rintro (hc | ⟨q, hq, hb⟩)
      · exact Or.inl (Or.inl hc)
      · rcases List.mem_cons.1 hq with rfl | hq
        · exact Or.inl (Or.inr hb)
        · exact Or.inr ⟨q, hq, hb⟩

/-- Folding diet3.c inserts keeps the invariants and accumulates coverage. -/
theorem dt_fold_spec : ∀ (ops : List (Int × Int)) (t : Diet3.Tree),
    (∀ p ∈ ops, p.1 ≤ p.2) → OkL t.intervals → Diet3.posOk t →
    (OkL (ops.foldl (fun u p => (Diet3.insert_range u p.1 p.2).1) t).intervals ∧
      Diet3.posOk (ops.foldl (fun u p => (Diet3.insert_range u p.1 p.2).1) t)) ∧
    ∀ i : Int,
      coversL (ops.foldl (fun u p => (Diet3.insert_range u p.1 p.2).1) t).intervals i
        ↔ (coversL t.intervals i ∨ ∃ p ∈ ops, p.1 ≤ i ∧ i ≤ p.2) := by
  intro ops
  induction ops with
  | nil =>
    intro t _ hok hp
    exact ⟨⟨hok, hp⟩, fun i => by simp⟩
  | cons p ps ih =>
    intro t hops hok hp
    obtain ⟨⟨h1, h2⟩, h3⟩ := Diet3.insert_range3_spec p.1 p.2
      (hops p (by simp)) t hok hp
    obtain ⟨⟨g1, g4⟩, g2⟩ := ih (Diet3.insert_range t p.1 p.2).1
      (fun q hq => hops q (by simp [hq])) h1 h3
    refine ⟨⟨g1, g4⟩, fun i => ?_⟩
    rw [List.foldl_cons, g2 i, h2 i]
    constructor
    · rintro ((hc | hp2) | ⟨q, hq, hb⟩)
      · exact Or.inl hc
      · exact Or.inr ⟨p, by simp, hp2⟩
      · exact Or.inr ⟨q, by simp [hq], hb⟩
    · rintro (hc | ⟨q, hq, hb⟩)
      · exact Or.inl (Or.inl hc)
      · rcases List.mem_cons.1 hq with rfl | hq
        · exact Or.inl (Or.inr hb)
        · exact Or.inr ⟨q, hq, hb⟩

/-- Under the invariant, two stored intervals related by the pairwise order
cannot be positioned arbitrarily: one ends at least two below the other. -/
theorem OkL_sep : ∀ {ivs : List (Int × Int)}, OkL ivs →
    ∀ {p q : Int × Int}, p ∈ ivs → q ∈ ivs → p ≠ q →
    p.2 + 2 ≤ q.1 ∨ q.2 + 2 ≤ p.1 := by
  intro ivs
  induction ivs with
  | nil =>
    intro _ p q hp
    exact absurd hp (by simp)
  | cons a l ih =>
    intro hok p q hp hq hne
    have hpair := List.pairwise_cons.1 hok.2
    have hok' : OkL l := ⟨fun x hx => hok.1 x (by simp [hx]), hpair.2⟩
    rcases List.mem_cons.1 hp with rfl | hpL
    · rcases List.mem_cons.1 hq with rfl | hqL
      · exact absurd rfl hne
      · exact Or.inl (hpair.1 q hqL)
    · rcases List.mem_cons.1 hq with rfl | hqL
      · exact Or.inr (hpair.1 p hpL)
      · exact ih hok' hpL hqL hne

/-- If a whole valid range [lo, hi] is covered by an isolated interval list,
a single stored interval contains it. -/
theorem covered_subinterval {ivs : List (Int × Int)} (hok : OkL ivs)
    {lo hi : Int} (hlh : lo ≤ hi)
    (hcov : ∀ i : Int, lo ≤ i → i ≤ hi → coversL ivs i) :
    ∃ p ∈ ivs, p.1 ≤ lo ∧ hi ≤ p.2 := by
  obtain ⟨p, hp, hp1, hp2⟩ := hcov lo (le_refl _) hlh
  by_cases hh : hi ≤ p.2
  · exact ⟨p, hp, hp1, hh⟩
  · exfalso
    obtain ⟨q, hq, hq1, hq2⟩ := hcov (p.2 + 1) (by omega) (by omega)
    have hne : p ≠ q := by
      intro heq
      rw [← heq] at hq1 hq2
      omega
    rcases OkL_sep hok hp hq hne with h | h
    · omega
    · omega

namespace Diet

/-- Inserting a range already covered by the tree returns the same tree and
emits no blit call (diet.c). -/
theorem du_insert_covered : ∀ (t : Tree) (lo hi : Int), OkL t.intervals →
    lo ≤ hi → (∀ i : Int, lo ≤ i → i ≤ hi → coversL t.intervals i) →
    insert_range t lo hi = (t, []) := by
  intro t
  induction t with
  | leaf =>
    intro lo hi _ hlh hcov
    exact absurd (hcov lo (le_refl _) hlh) (by simp [Tree.intervals, coversL])
  | node s e l r ihl ihr =>
    intro lo hi hok hlh hcov
    obtain ⟨hokl, hokr, hse, hls, hre⟩ := OkL_node (l := l.intervals)
      (r := r.intervals) (by simpa [Tree.intervals] using hok)
    obtain ⟨p, hp, hplo, hphi⟩ := covered_subinterval
      (by simpa [Tree.intervals] using hok) hlh hcov
    simp only [Tree.intervals, List.mem_append, List.mem_cons] at hp
    rcases hp with hp | rfl | hp
    · -- the containing interval sits in the left subtree
      have hbound := hls p hp
      have hsl : ¬s < lo := by omega
      simp only [insert_range, hsl, if_false, ite_false]
      rw [if_neg (by omega : ¬(hi ≥ s ∨ hi + 1 = s)),
        if_neg (by rintro ⟨rfl, rfl⟩; omega : ¬(lo = s ∧ hi = e))]
      rw [ihl lo hi hokl hlh
        (fun i h1 h2 => ⟨p, hp, by omega, by omega⟩)]
    · -- the node interval itself contains [lo, hi]
      by_cases hsl : s < lo
      · simp only [insert_range, hsl, if_true, ite_true]
        rw [if_pos (by omega : e ≥ lo ∨ e + 1 = lo),
          if_pos (⟨by omega, by omega⟩ : lo ≥ s ∧ hi ≤ e)]
      · simp only [insert_range, hsl, if_false, ite_false]
        rw [if_pos (by omega : hi ≥ s ∨ hi + 1 = s),
          if_pos (⟨by omega, by omega⟩ : lo ≥ s ∧ hi ≤ e)]
    · -- the containing interval sits in the right subtree
      have hbound := hre p hp
      have hsl : s < lo := by omega
      simp only [insert_range, hsl, if_true, ite_true, eq_self_iff_true, and_self]
      rw [if_neg (by omega : ¬(e ≥ lo ∨ e + 1 = lo))]
      rw [ihr lo hi hokr hlh
        (fun i h1 h2 => ⟨p, hp, by omega, by omega⟩)]

end Diet

namespace Diet3

/-- Inserting a range already covered by the tree keeps the stored interval
set identical and emits no blit call (diet3.c). -/
theorem dt_insert_covered : ∀ (t : Tree) (lo hi : Int), OkL t.intervals →
    posOk t → lo ≤ hi →
    (∀ i : Int, lo ≤ i → i ≤ hi → coversL t.intervals i) →
    (insert_range t lo hi).1.intervals = t.intervals ∧
    (insert_range t lo hi).2 = [] := by
  intro t
  induction t with
  | leaf =>
    intro lo hi _ _ hlh hcov
    exact absurd (hcov lo (le_refl _) hlh) (by simp [Tree.intervals, coversL])
  | node s e h l r ihl ihr =>
    intro lo hi hok hp hlh hcov
    obtain ⟨hokl, hokr, hse, hls, hre⟩ := OkL_node (l := l.intervals)
      (r := r.intervals) (by simpa [Tree.intervals] using hok)
    obtain ⟨hx, hpl, hpr⟩ := hp
    obtain ⟨p, hpmem, hplo, hphi⟩ := covered_subinterval
      (by simpa [Tree.intervals] using hok) hlh hcov
    simp only [Tree.intervals, List.mem_append, List.mem_cons] at hpmem
    simp only [insert_range]
    rcases hpmem with hpm | rfl | hpm
    · -- containing interval in the left subtree
      have hbound := hls p hpm
      rw [if_pos (by omega : hi < s - 1)]
      obtain ⟨e1, e2⟩ := ihl lo hi hokl hpl hlh
        (fun i h1 h2 => ⟨p, hpm, by omega, by omega⟩)
      have hposl : posOk (insert_range l lo hi).1 :=
        ((insert_range3_spec lo hi hlh l hokl hpl).2)
      constructor
      · rw [intervals_join hposl hpr, e1]
        simp [Tree.intervals]
      · exact e2
    · -- the node interval itself contains [lo, hi]
      rw [if_neg (by omega : ¬hi < s - 1), if_neg (by omega : ¬lo > e + 1),
        if_pos (by omega : lo ≥ s), if_pos (by omega : hi ≤ e)]
      constructor
      · rw [intervals_join hpl hpr]
        simp [Tree.intervals]
      · rfl
    · -- containing interval in the right subtree
      have hbound := hre p hpm
      rw [if_neg (by omega : ¬hi < s - 1), if_pos (by omega : lo > e + 1)]
      obtain ⟨e1, e2⟩ := ihr lo hi hokr hpr hlh
        (fun i h1 h2 => ⟨p, hpm, by omega, by omega⟩)
      have hposr : posOk (insert_range r lo hi).1 :=
        ((insert_range3_spec lo hi hlh r hokr hpr).2)
      constructor
      · rw [intervals_join hpl hposr, e1]
        simp [Tree.intervals]
      · exact e2

/-- If the inserted range is not fully covered, diet3.c insert_range emits
at least one blit call. -/
theorem dt_insert_blits : ∀ (t : Tree) (lo hi : Int), OkL t.intervals →
    posOk t → lo ≤ hi →
    (¬ ∀ i : Int, lo ≤ i → i ≤ hi → coversL t.intervals i) →
    (insert_range t lo hi).2 ≠ [] := by
  intro t
  induction t with
  | leaf =>
    intro lo hi _ _ _ _
    simp [insert_range]
  | node s e h l r ihl ihr =>
    intro lo hi hok hp hlh hnc
    obtain ⟨hokl, hokr, hse, hls, hre⟩ := OkL_node (l := l.intervals)
      (r := r.intervals) (by simpa [Tree.intervals] using hok)
    obtain ⟨hx, hpl, hpr⟩ := hp
    simp only [insert_range]
    by_cases h1 : hi < s - 1
    · rw [if_pos h1]
      refine ihl lo hi hokl hpl hlh ?_
      intro hall
      refine hnc fun i hi1 hi2 => ?_
      obtain ⟨q, hq, hq1, hq2⟩ := hall i hi1 hi2
      exact ⟨q, by simp [Tree.intervals, hq], hq1, hq2⟩
    · rw [if_neg h1]
      by_cases h2 : lo > e + 1
      · rw [if_pos h2]
        refine ihr lo hi hokr hpr hlh ?_
        intro hall
        refine hnc fun i hi1 hi2 => ?_
        obtain ⟨q, hq, hq1, hq2⟩ := hall i hi1 hi2
        exact ⟨q, by simp [Tree.intervals, hq], hq1, hq2⟩
      · rw [if_neg h2]
        by_cases hgs : lo ≥ s
        · rw [if_pos hgs]
          by_cases hle : hi ≤ e
          · refine absurd ?_ hnc
            intro i hi1 hi2
            exact ⟨(s, e), by simp [Tree.intervals], by omega, by omega⟩
          · rw [if_neg hle]
            obtain ⟨R1, R2, R3⟩ := fdr_spec hi (e + 1) r hokr hpr
            simp only [List.nil_append]
            exact R3
        · rw [if_neg hgs]
          obtain ⟨L1, L2, L3⟩ := fdl_spec lo (s - 1) l hokl hpl
          intro hemp
          rcases List.append_eq_nil.1 hemp with ⟨he1, _⟩
          exact L3 he1

end Diet3

namespace Avl

/-- Sentinel index T = INT16_MAX of avl_tree_ref.c. -/
def T : Int := 32767

/-- MIN = INT16_MIN, the neutral element for the max augmentation. -/
def MIN : Int := -32768

/-- Arena capacity N of avl_tree_ref.c. -/
def N : Int := 1000

/-- struct node of avl_tree_ref.c. -/
structure Node where
  low : Int
  high : Int
  max : Int
  left : Int
  right : Int
  parent : Int
  height : Int
deriving Repr, DecidableEq

/-- The global state: root index, arena length, and the node array.  The
array is modelled as a total map from indices; the C globals start
zero-initialised. -/
structure St where
  root : Int
  len : Int
  nodes : Int → Node

/-- Initial state: root = T, len = 0, zero-initialised arena. -/
def initSt : St :=
  { root := T, len := 0, nodes := fun _ => ⟨0, 0, 0, 0, 0, 0, 0⟩ }

/-- Write one node record. -/
def upd (st : St) (i : Int) (f : Node → Node) : St :=
  { st with nodes := fun j => if j = i then f (st.nodes i) else st.nodes j }

/-- avl_tree_ref.c init_node. -/
def init_node (st : St) (i low high : Int) : St :=
  upd st i fun _ => ⟨low, high, high, T, T, T, 1⟩

/-- avl_tree_ref.c height(x). -/
def height (st : St) (x : Int) : Int :=
  if x = T then 0 else (st.nodes x).height

/-- avl_tree_ref.c diff(x). -/
def diff (st : St) (x : Int) : Int :=
  height st (st.nodes x).right - height st (st.nodes x).left

/-- avl_tree_ref.c update_height(x). -/
def update_height (st : St) (x : Int) : St :=
  upd st x fun n =>
    { n with height :=
        1 + max (height st (st.nodes x).left) (height st (st.nodes x).right) }

/-- avl_tree_ref.c update_max(x). -/
def update_max (st : St) (x : Int) : St :=
  let lm := if (st.nodes x).left = T then MIN else (st.nodes (st.nodes x).left).max
  let rm := if (st.nodes x).right = T then MIN else (st.nodes (st.nodes x).right).max
  upd st x fun n => { n with max := max n.high (max lm rm) }

/-- avl_tree_ref.c right_rotate(x); each write reads the state produced by
the previous write, exactly in source order.  Returns the new subtree
root y. -/
def right_rotate (st : St) (x : Int) : St × Int :=
  let y := (st.nodes x).left
  let st1 := upd st x fun n => { n with left := (st.nodes y).right }
  let st2 := if (st1.nodes y).right ≠ T then
      upd st1 ((st1.nodes y).right) fun n => { n with parent := x }
    else st1
  let st3 := upd st2 y fun n => { n with parent := (st2.nodes x).parent }
  let st4 := if (st3.nodes x).parent = T then { st3 with root := y }
    else if x = (st3.nodes ((st3.nodes x).parent)).left then
      upd st3 ((st3.nodes x).parent) fun n => { n with left := y }
    else
      upd st3 ((st3.nodes x).parent) fun n => { n with right := y }
  let st5 := upd st4 y fun n => { n with right := x }
  let st6 := upd st5 x fun n => { n with parent := y }
  let st7 := update_height st6 x
  let st8 := update_height st7 y
  let st9 := update_max st8 x
  let st10 := update_max st9 y
  (st10, y)

/-- avl_tree_ref.c left_rotate(x), mirror image of right_rotate. -/
def left_rotate (st : St) (x : Int) : St × Int :=
  let y := (st.nodes x).right
  let st1 := upd st x fun n => { n with right := (st.nodes y).left }
  let st2 := if (st1.nodes y).left ≠ T then
      upd st1 ((st1.nodes y).left) fun n => { n with parent := x }
    else st1
  let st3 := upd st2 y fun n => { n with parent := (st2.nodes x).parent }
  let st4 := if (st3.nodes x).parent = T then { st3 with root := y }
    else if x = (st3.nodes ((st3.nodes x).parent)).left then
      upd st3 ((st3.nodes x).parent) fun n => { n with left := y }
    else
      upd st3 ((st3.nodes x).parent) fun n => { n with right := y }
  let st5 := upd st4 y fun n => { n with left := x }
  let st6 := upd st5 x fun n => { n with parent := y }
  let st7 := update_height st6 x
  let st8 := update_height st7 y
  let st9 := update_max st8 x
  let st10 := update_max st9 y
  (st10, y)

/-- avl_tree_ref.c balance(x). -/
def balance (st : St) (x : Int) : St × Int :=
  let d := diff st x
  if d > 1 then
    let st1 := if diff st (st.nodes x).right < 0 then
        let res := right_rotate st ((st.nodes x).right)
        upd res.1 x fun n => { n with right := res.2 }
      else st
    left_rotate st1 x
  else if d < -1 then
    let st1 := if diff st (st.nodes x).left > 0 then
        let res := left_rotate st ((st.nodes x).left)
        upd res.1 x fun n => { n with left := res.2 }
      else st
    right_rotate st1 x
  else
    (update_max (update_height st x) x, x)

/-- The BST descent loop of insert: while (x != T) { p = x; x = child }.
The fuel bounds the number of iterations; with a well-formed tree any
fuel larger than the tree height suffices. -/
def descend (st : St) (low : Int) : Nat → Int → Int → Int
  | 0, _, p => p
  | fuel + 1, x, p =>
    if x = T then p
    else descend st low fuel
      (if low < (st.nodes x).low then (st.nodes x).left else (st.nodes x).right) x

/-- The rebalancing climb of insert:
while (nodes[x].parent != T) { x = nodes[x].parent; x = balance(x); }. -/
def climb : Nat → St → Int → St × Int
  | 0, st, x => (st, x)
  | fuel + 1, st, x =>
    if (st.nodes x).parent = T then (st, x)
    else
      let res := balance st ((st.nodes x).parent)
      climb fuel res.1 res.2

/-- avl_tree_ref.c insert(low, high).  The two while loops run on the given
fuel; no capacity check is performed (i16 n = len++). -/
def insert (fuel : Nat) (st : St) (low high : Int) : St :=
  let n := st.len
  let st1 := init_node { st with len := st.len + 1 } n low high
  if st1.root = T then { st1 with root := n }
  else
    let p := descend st1 low fuel st1.root T
    let st2 := if low < (st1.nodes p).low then
        upd st1 p fun nd => { nd with left := n }
      else
        upd st1 p fun nd => { nd with right := n }
    let st3 := upd st2 n fun nd => { nd with parent := p }
    let res := climb fuel st3 n
    { res.1 with root := res.2 }

/-- avl_tree_ref.c overlap(x0, x1, y0, y1). -/
def overlap (x0 x1 y0 y1 : Int) : Prop := x0 ≤ y1 ∧ y0 ≤ x1

instance (x0 x1 y0 y1 : Int) : Decidable (overlap x0 x1 y0 y1) := by
  unfold overlap; infer_instance

/-- avl_tree_ref.c find_all_overlapping, emitting handles in visit order. -/
def find_all_overlapping (st : St) (low high : Int) : Nat → Int → List Int
  | 0, _ => []
  | fuel + 1, x =>
    if x = T then []
    else
      (if overlap low high (st.nodes x).low (st.nodes x).high then [x] else [])
      ++ (if (st.nodes x).left ≠ T ∧ (st.nodes (st.nodes x).left).max ≥ low then
          find_all_overlapping st low high fuel (st.nodes x).left
        else [])
      ++ (if (st.nodes x).right ≠ T ∧ (st.nodes (st.nodes x).right).max ≥ low then
          find_all_overlapping st low high fuel (st.nodes x).right
        else [])

/-- avl_tree_ref.c find_all_overlapping_naive: linear scan of indices
0 .. len - 1. -/
def find_all_overlapping_naive (st : St) (low high : Int) : List Int :=
  ((List.range st.len.toNat).map (fun k => (k : Int))).filter
    fun i => decide (overlap low high (st.nodes i).low (st.nodes i).high)

/-- Running a sequence of inserts from the initial state, giving each insert
the stated fuel. -/
def insertSeq (fuel : Nat) (ops : List (Int × Int)) : St :=
  ops.foldl (fun st p => insert fuel st p.1 p.2) initSt

/-- Frame relation: b has the same arena length as a and every node record
keeps its low and high endpoints. -/
def frameEq (a b : St) : Prop :=
  b.len = a.len ∧
  ∀ j : Int, (b.nodes j).low = (a.nodes j).low ∧ (b.nodes j).high = (a.nodes j).high

theorem frameEq_refl (a : St) : frameEq a a := ⟨rfl, fun _ => ⟨rfl, rfl⟩⟩

theorem frameEq_trans {a b c : St} (h1 : frameEq a b) (h2 : frameEq b c) :
    frameEq a c := by
  refine ⟨h2.1.trans h1.1, fun j => ?_⟩
  obtain ⟨e1, e2⟩ := h1.2 j
  obtain ⟨f1, f2⟩ := h2.2 j
  exact ⟨f1.trans e1, f2.trans e2⟩

theorem frameEq_upd_of {a b : St} (h : frameEq a b) (i : Int)
    {f : Node → Node} (hf : ∀ n, (f n).low = n.low ∧ (f n).high = n.high) :
    frameEq a (upd b i f) := by
  refine ⟨h.1, fun j => ?_⟩
  obtain ⟨e1, e2⟩ := h.2 j
  dsimp only [upd]
  split_ifs with hj
  · subst hj
    obtain ⟨g1, g2⟩ := hf (b.nodes j)
    obtain ⟨e1, e2⟩ := h.2 j
    exact ⟨g1.trans e1, g2.trans e2⟩
  · exact ⟨e1, e2⟩

theorem frameEq_upd_left {a b : St} (h : frameEq a b) {i v : Int} :
    frameEq a (upd b i fun n => { n with left := v }) :=
  frameEq_upd_of h i fun _ => ⟨rfl, rfl⟩

theorem frameEq_upd_right {a b : St} (h : frameEq a b) {i v : Int} :
    frameEq a (upd b i fun n => { n with right := v }) :=
  frameEq_upd_of h i fun _ => ⟨rfl, rfl⟩

theorem frameEq_upd_parent {a b : St} (h : frameEq a b) {i v : Int} :
    frameEq a (upd b i fun n => { n with parent := v }) :=
  frameEq_upd_of h i fun _ => ⟨rfl, rfl⟩

theorem frameEq_update_height_of {a b : St} (h : frameEq a b) {x : Int} :
    frameEq a (update_height b x) :=
  frameEq_upd_of h x fun _ => ⟨rfl, rfl⟩

theorem frameEq_update_max_of {a b : St} (h : frameEq a b) {x : Int} :
    frameEq a (update_max b x) :=
  frameEq_upd_of h x fun _ => ⟨rfl, rfl⟩

theorem frameEq_root_of {a b : St} (h : frameEq a b) {v : Int} :
    frameEq a { b with root := v } := h

set_option maxHeartbeats 2000000 in
theorem frameEq_right_rotate_of {a b : St} (h : frameEq a b) (x : Int) :
    frameEq a (right_rotate b x).1 := by
  unfold right_rotate
  dsimp only
  refine frameEq_update_max_of (frameEq_update_max_of (frameEq_update_height_of
    (frameEq_update_height_of (frameEq_upd_parent (frameEq_upd_right ?_)))))
  split_ifs <;>
    first
      | exact frameEq_root_of (frameEq_upd_parent (frameEq_upd_parent
          (frameEq_upd_left h)))
      | exact frameEq_root_of (frameEq_upd_parent (frameEq_upd_left h))
      | exact frameEq_upd_left (frameEq_upd_parent (frameEq_upd_parent
          (frameEq_upd_left h)))
      | exact frameEq_upd_left (frameEq_upd_parent (frameEq_upd_left h))
      | exact frameEq_upd_right (frameEq_upd_parent (frameEq_upd_parent
          (frameEq_upd_left h)))
      | exact frameEq_upd_right (frameEq_upd_parent (frameEq_upd_left h))

set_option maxHeartbeats 2000000 in
theorem frameEq_left_rotate_of {a b : St} (h : frameEq a b) (x : Int) :
    frameEq a (left_rotate b x).1 := by
  unfold left_rotate
  dsimp only
  refine frameEq_update_max_of (frameEq_update_max_of (frameEq_update_height_of
    (frameEq_update_height_of (frameEq_upd_parent (frameEq_upd_left ?_)))))
  split_ifs <;>
    first
      | exact frameEq_root_of (frameEq_upd_parent (frameEq_upd_parent
          (frameEq_upd_right h)))
      | exact frameEq_root_of (frameEq_upd_parent (frameEq_upd_right h))
      | exact frameEq_upd_left (frameEq_upd_parent (frameEq_upd_parent
          (frameEq_upd_right h)))
      | exact frameEq_upd_left (frameEq_upd_parent (frameEq_upd_right h))
      | exact frameEq_upd_right (frameEq_upd_parent (frameEq_upd_parent
          (frameEq_upd_right h)))
      | exact frameEq_upd_right (frameEq_upd_parent (frameEq_upd_right h))

theorem frameEq_balance_of {a b : St} (h : frameEq a b) (x : Int) :
    frameEq a (balance b x).1 := by
  unfold balance
  dsimp only
  split_ifs
  · exact frameEq_left_rotate_of (frameEq_upd_right (frameEq_right_rotate_of h _)) x
  · exact frameEq_left_rotate_of h x
  · exact frameEq_right_rotate_of (frameEq_upd_left (frameEq_left_rotate_of h _)) x
  · exact frameEq_right_rotate_of h x
  · exact frameEq_update_max_of (frameEq_update_height_of h)

theorem frameEq_climb_of : ∀ (fuel : Nat) {a b : St} (x : Int),
    frameEq a b → frameEq a (climb fuel b x).1 := by
  intro fuel
  induction fuel with
  | zero =>
    intro a b x h
    exact h
  | succ fuel ih =>
    intro a b x h
    dsimp only [climb]
    split_ifs with h1
    · exact h
    · exact ih _ (frameEq_balance_of h _)

/-- Frame theorem for avl_tree_ref.c insert, for any fuel and any starting
state: the arena grows by exactly one record, the new record at index len
carries the inserted endpoints, and neither low nor high of any other
record changes. -/
theorem insert_frame (fuel : Nat) (st : St) (low high : Int) :
    (insert fuel st low high).len = st.len + 1 ∧
    ((insert fuel st low high).nodes st.len).low = low ∧
    ((insert fuel st low high).nodes st.len).high = high ∧
    ∀ j : Int, j ≠ st.len →
      ((insert fuel st low high).nodes j).low = (st.nodes j).low ∧
      ((insert fuel st low high).nodes j).high = (st.nodes j).high := by
  have hA : ∀ res : St,
      frameEq (init_node { st with len := st.len + 1 } st.len low high) res →
      res.len = st.len + 1 ∧
      (res.nodes st.len).low = low ∧ (res.nodes st.len).high = high ∧
      ∀ j : Int, j ≠ st.len →
        (res.nodes j).low = (st.nodes j).low ∧
        (res.nodes j).high = (st.nodes j).high := by
    intro res hres
    obtain ⟨hlen, hnodes⟩ := hres
    refine ⟨by simpa [init_node, upd] using hlen, ?_, ?_, ?_⟩
    · have := (hnodes st.len).1
      simpa [init_node, upd] using this
    · have := (hnodes st.len).2
      simpa [init_node, upd] using this
    · intro j hj
      obtain ⟨e1, e2⟩ := hnodes j
      constructor
      · rw [e1]
        simp [init_node, upd, hj]
      · rw [e2]
        simp [init_node, upd, hj]
  unfold insert
  dsimp only
  split_ifs with h1 h2
  · exact hA _ (frameEq_root_of (frameEq_refl _))
  · exact hA _ (frameEq_root_of (frameEq_climb_of _ _
      (frameEq_upd_parent (frameEq_upd_left (frameEq_refl _)))))
  · exact hA _ (frameEq_root_of (frameEq_climb_of _ _
      (frameEq_upd_parent (frameEq_upd_right (frameEq_refl _)))))

end Avl

/-- The invariant implies the pairwise isolation formula checked by
check_isolation in diet.c / diet3.c. -/
theorem OkL_isolated {ivs : List (Int × Int)} (h : OkL ivs) :
    ivs.Pairwise fun x y => ¬ overlapping_or_adjacent x y := by
  refine h.2.imp_of_mem ?_
  intro a b _ _ hr hoa
  obtain ⟨h1, h2⟩ := hoa
  omega

namespace Diet

/-- diet.c arena capacity N. -/
def N : Int := 10000

/-- Allocation step of diet.c new_node: i16 n = len++ with no capacity
check; returns the index written to and the new arena length. -/
def new_node_alloc (len : Int) : Int × Int := (len, len + 1)

end Diet

namespace Diet3

/-- diet3.c arena capacity N. -/
def N : Int := 1000

/-- Allocation step of diet3.c new_node: assert(n < N) aborts when the
arena is full, modelled as none; otherwise index len is allocated. -/
def new_node_alloc (len : Int) : Option (Int × Int) :=
  if len < N then some (len, len + 1) else none

end Diet3

/-! ## Claims -/

/-- C1: the spec claims that for each insert(lo, hi) the union of the ranges
passed to blit equals exactly the previously-absent part of [lo, hi], in
both variants.  The code contradicts its own bitmask oracle (check_masks):
after diet.c inserts (1,2),(5,6), the call insert(2,3) newly covers 3 but
emits no blit call at all; after diet3.c inserts (1,2),(5,6),(10,11),(15,16),
the call insert(2,15) emits a blit range covering 10 although 10 was already
present. -/
theorem c1_blit_code_bug :
    ((Diet.insert_range (Diet.insertSeq [(1, 2), (5, 6)]) 2 3).2 = [] ∧
      ¬ coversL (Diet.insertSeq [(1, 2), (5, 6)]).intervals 3 ∧
      coversL (Diet.insertSeq [(1, 2), (5, 6), (2, 3)]).intervals 3) ∧
    (coversL (Diet3.insert_range
        (Diet3.insertSeq [(1, 2), (5, 6), (10, 11), (15, 16)]) 2 15).2 10 ∧
      coversL (Diet3.insertSeq [(1, 2), (5, 6), (10, 11), (15, 16)]).intervals 10) := by
  have e1 : (Diet3.insert_range
      (Diet3.insertSeq [(1, 2), (5, 6), (10, 11), (15, 16)]) 2 15).2 = [(3, 4), (7, 14)] := by
    simp [Diet3.insertSeq, Diet3.insert_range, Diet3.join, Diet3.add, Diet3.balance,
      Diet3.create, Diet3.height_join, Diet3.height, Diet3.bal_const,
      Diet3.find_del_left, Diet3.find_del_right]
  have e2 : (Diet3.insertSeq [(1, 2), (5, 6), (10, 11), (15, 16)]).intervals
      = [(1, 2), (5, 6), (10, 11), (15, 16)] := by
    simp [Diet3.insertSeq, Diet3.insert_range, Diet3.join, Diet3.add, Diet3.balance,
      Diet3.create, Diet3.height_join, Diet3.height, Diet3.bal_const,
      Diet3.find_del_left, Diet3.find_del_right, Diet3.Tree.intervals]
  refine ⟨by decide, ?_, ?_⟩
  · rw [e1]; decide
  · rw [e2]; decide

/-- C2: after any sequence of DIET inserts with valid arguments, the stored
intervals are pairwise neither overlapping nor adjacent by one unit, in both
the unbalanced (diet.c) and the balanced (diet3.c) variant. -/
theorem c2_isolation (ops : List (Int × Int)) (hops : ∀ p ∈ ops, p.1 ≤ p.2) :
    ((Diet.insertSeq ops).intervals.Pairwise
      fun x y => ¬ overlapping_or_adjacent x y) ∧
    ((Diet3.insertSeq ops).intervals.Pairwise
      fun x y => ¬ overlapping_or_adjacent x y) := by
  have h1 := du_fold_spec ops Diet.Tree.leaf hops OkL_nil
  have h2 := dt_fold_spec ops Diet3.Tree.leaf hops OkL_nil trivial
  exact ⟨OkL_isolated h1.1, OkL_isolated h2.1.1⟩

theorem c2_isolation_witness :
    (∀ p ∈ [((1 : Int), (3 : Int)), (6, 8), (2, 4)], p.1 ≤ p.2) ∧
    ((Diet.insertSeq [(1, 3), (6, 8), (2, 4)]).intervals.Pairwise
      fun x y => ¬ overlapping_or_adjacent x y) ∧
    ((Diet3.insertSeq [(1, 3), (6, 8), (2, 4)]).intervals.Pairwise
      fun x y => ¬ overlapping_or_adjacent x y) :=
  ⟨by decide, c2_isolation [(1, 3), (6, 8), (2, 4)] (by decide)⟩

/-- C3: after any sequence of DIET inserts with valid arguments, the union
of the stored intervals equals the union of all inserted ranges, in both
variants. -/
theorem c3_coverage (ops : List (Int × Int)) (hops : ∀ p ∈ ops, p.1 ≤ p.2) :
    (∀ i : Int, coversL (Diet.insertSeq ops).intervals i
      ↔ ∃ p ∈ ops, p.1 ≤ i ∧ i ≤ p.2) ∧
    (∀ i : Int, coversL (Diet3.insertSeq ops).intervals i
      ↔ ∃ p ∈ ops, p.1 ≤ i ∧ i ≤ p.2) := by
  have h1 := du_fold_spec ops Diet.Tree.leaf hops OkL_nil
  have h2 := dt_fold_spec ops Diet3.Tree.leaf hops OkL_nil trivial
  constructor
  · intro i
    have h := h1.2 i
    simp only [Diet.Tree.intervals] at h
    rwa [or_iff_right coversL_nil] at h
  · intro i
    have h := h2.2 i
    simp only [Diet3.Tree.intervals] at h
    rwa [or_iff_right coversL_nil] at h

theorem c3_coverage_witness :
    (∀ p ∈ [((2 : Int), (4 : Int)), (7, 9), (5, 5)], p.1 ≤ p.2) ∧
    (∀ i : Int, coversL (Diet.insertSeq [(2, 4), (7, 9), (5, 5)]).intervals i
      ↔ ∃ p ∈ [((2 : Int), (4 : Int)), (7, 9), (5, 5)], p.1 ≤ i ∧ i ≤ p.2) ∧
    (∀ i : Int, coversL (Diet3.insertSeq [(2, 4), (7, 9), (5, 5)]).intervals i
      ↔ ∃ p ∈ [((2 : Int), (4 : Int)), (7, 9), (5, 5)], p.1 ≤ i ∧ i ≤ p.2) :=
  ⟨by decide, c3_coverage [(2, 4), (7, 9), (5, 5)] (by decide)⟩

/-- C4: the spec scenario E5 claims insert(10,11); insert(9,12) leaves the
stored set {[9,12]} and the blit trace of the second call covers exactly
{9, 12}.  diet.c stores [9,12] but blits only (9,9), missing the newly
covered 12, contradicting its own bitmask oracle; diet3.c blits exactly
(9,9) and (12,12) as specified. -/
theorem c4_e5_code_bug :
    (Diet.insertSeq [(10, 11), (9, 12)]).intervals = [(9, 12)] ∧
    (Diet.insert_range (Diet.insertSeq [(10, 11)]) 9 12).2 = [(9, 9)] ∧
    ¬ coversL (Diet.insert_range (Diet.insertSeq [(10, 11)]) 9 12).2 12 ∧
    ¬ coversL (Diet.insertSeq [(10, 11)]).intervals 12 ∧
    (Diet3.insertSeq [(10, 11), (9, 12)]).intervals = [(9, 12)] ∧
    (Diet3.insert_range (Diet3.insertSeq [(10, 11)]) 9 12).2 = [(9, 9), (12, 12)] := by
  refine ⟨by decide, by decide, by decide, by decide, ?_, ?_⟩
  · simp [Diet3.insertSeq, Diet3.insert_range, Diet3.join, Diet3.add, Diet3.balance,
      Diet3.create, Diet3.height_join, Diet3.height, Diet3.bal_const,
      Diet3.find_del_left, Diet3.find_del_right, Diet3.Tree.intervals]
  · simp [Diet3.insertSeq, Diet3.insert_range, Diet3.join, Diet3.add, Diet3.balance,
      Diet3.create, Diet3.height_join, Diet3.height, Diet3.bal_const,
      Diet3.find_del_left, Diet3.find_del_right]

/-- C5: inserting a range that is already fully covered emits no blit call
and leaves the stored interval set identical; for diet.c even the tree is
returned unchanged, for diet3.c the inorder interval list is unchanged. -/
theorem c5_idempotence (ops : List (Int × Int)) (lo hi : Int)
    (hops : ∀ p ∈ ops, p.1 ≤ p.2) (hlh : lo ≤ hi)
    (hcov : ∀ i : Int, lo ≤ i → i ≤ hi →
      coversL (Diet.insertSeq ops).intervals i) :
    Diet.insert_range (Diet.insertSeq ops) lo hi = (Diet.insertSeq ops, []) ∧
    (Diet3.insert_range (Diet3.insertSeq ops) lo hi).1.intervals
      = (Diet3.insertSeq ops).intervals ∧
    (Diet3.insert_range (Diet3.insertSeq ops) lo hi).2 = [] := by
  have h1 := du_fold_spec ops Diet.Tree.leaf hops OkL_nil
  have h2 := dt_fold_spec ops Diet3.Tree.leaf hops OkL_nil trivial
  have hcov3 : ∀ i : Int, lo ≤ i → i ≤ hi →
      coversL (Diet3.insertSeq ops).intervals i := by
    intro i ha hb
    have hx := h1.2 i
    have hy := h2.2 i
    simp only [Diet.Tree.intervals] at hx
    simp only [Diet3.Tree.intervals] at hy
    rw [or_iff_right coversL_nil] at hx hy
    exact hy.2 (hx.1 (hcov i ha hb))
  refine ⟨Diet.du_insert_covered _ lo hi h1.1 hlh hcov, ?_, ?_⟩
  · exact (Diet3.dt_insert_covered _ lo hi h2.1.1 h2.1.2 hlh hcov3).1
  · exact (Diet3.dt_insert_covered _ lo hi h2.1.1 h2.1.2 hlh hcov3).2

theorem c5_idempotence_witness :
    (∀ i : Int, 2 ≤ i → i ≤ 3 →
      coversL (Diet.insertSeq [(1, 5)]).intervals i) ∧
    Diet.insert_range (Diet.insertSeq [(1, 5)]) 2 3 = (Diet.insertSeq [(1, 5)], []) ∧
    (Diet3.insert_range (Diet3.insertSeq [(1, 5)]) 2 3).1.intervals
      = (Diet3.insertSeq [(1, 5)]).intervals ∧
    (Diet3.insert_range (Diet3.insertSeq [(1, 5)]) 2 3).2 = [] := by
  have hcov : ∀ i : Int, 2 ≤ i → i ≤ 3 →
      coversL (Diet.insertSeq [(1, 5)]).intervals i := by
    intro i h1 h2
    exact ⟨(1, 5), by decide, by omega, by omega⟩
  exact ⟨hcov, c5_idempotence [(1, 5)] 2 3 (by decide) (by decide) hcov⟩

/-- C8: the spec claims all three variants fail fast via an assertion when
the arena is full.  Only diet3.c asserts: diet.c new_node and the AVL
insert allocate unchecked, so at len = N they write a node record at index
N, outside the arena 0 .. N-1, and succeed. -/
theorem c8_capacity_counterexample :
    Diet.new_node_alloc Diet.N = (Diet.N, Diet.N + 1) ∧
    ¬ Diet.N < Diet.N ∧
    (Avl.insert 1 { Avl.initSt with len := Avl.N } 1 2).len = Avl.N + 1 ∧
    ((Avl.insert 1 { Avl.initSt with len := Avl.N } 1 2).nodes Avl.N).low = 1 := by
  refine ⟨rfl, by decide, by decide, by decide⟩

/-- C8 amended: only the balanced DIET variant's new_node asserts on arena
exhaustion (modelled as none); the unbalanced DIET and the interval AVL
tree allocate unchecked, writing the new record at index len regardless of
capacity. -/
theorem c8_capacity_amended (len : Int) :
    (¬ len < Diet3.N → Diet3.new_node_alloc len = none) ∧
    (len < Diet3.N → Diet3.new_node_alloc len = some (len, len + 1)) ∧
    Diet.new_node_alloc len = (len, len + 1) ∧
    ∀ (fuel : Nat) (st : Avl.St) (lo hi : Int),
      (Avl.insert fuel st lo hi).len = st.len + 1 ∧
      ((Avl.insert fuel st lo hi).nodes st.len).low = lo := by
  refine ⟨fun h => by simp [Diet3.new_node_alloc, h],
    fun h => by simp [Diet3.new_node_alloc, h], rfl, ?_⟩
  intro fuel st lo hi
  obtain ⟨h1, h2, _, _⟩ := Avl.insert_frame fuel st lo hi
  exact ⟨h1, h2⟩

theorem c8_capacity_amended_witness :
    (¬ (1000 : Int) < Diet3.N ∧ Diet3.new_node_alloc 1000 = none) ∧
    ((500 : Int) < Diet3.N ∧ Diet3.new_node_alloc 500 = some (500, 501)) ∧
    Diet.new_node_alloc 10000 = (10000, 10001) ∧
    (Avl.insert 1 { Avl.initSt with len := Avl.N } 3 4).len = Avl.N + 1 ∧
    ((Avl.insert 1 { Avl.initSt with len := Avl.N } 3 4).nodes
      ({ Avl.initSt with len := Avl.N } : Avl.St).len).low = 3 :=
  ⟨⟨by decide, (c8_capacity_amended 1000).1 (by decide)⟩,
    ⟨by decide, (c8_capacity_amended 500).2.1 (by decide)⟩,
    (c8_capacity_amended 10000).2.2.1,
    ((c8_capacity_amended 0).2.2.2 1 { Avl.initSt with len := Avl.N } 3 4).1,
    ((c8_capacity_amended 0).2.2.2 1 { Avl.initSt with len := Avl.N } 3 4).2⟩

/-- C9: the spec claims blit is invoked one or more times during every
diet_insert with low ≤ high.  False: inserting (2,3) after (1,5) emits zero
blit calls in both variants. -/
theorem c9_counterexample :
    ((1 : Int) ≤ 5 ∧ (2 : Int) ≤ 3) ∧
    (Diet.insert_range (Diet.insertSeq [(1, 5)]) 2 3).2 = [] ∧
    (Diet3.insert_range (Diet3.insertSeq [(1, 5)]) 2 3).2 = [] := by
  decide

/-- C9 amended: blit is invoked zero or more times; it is invoked zero
times whenever [lo, hi] is already fully covered (both variants), and in
the balanced variant it is invoked at least once whenever [lo, hi] is not
fully covered. -/
theorem c9_blit_calls (ops : List (Int × Int)) (lo hi : Int)
    (hops : ∀ p ∈ ops, p.1 ≤ p.2) (hlh : lo ≤ hi) :
    ((∀ i : Int, lo ≤ i → i ≤ hi → coversL (Diet.insertSeq ops).intervals i) →
      (Diet.insert_range (Diet.insertSeq ops) lo hi).2 = []) ∧
    ((∀ i : Int, lo ≤ i → i ≤ hi → coversL (Diet3.insertSeq ops).intervals i) →
      (Diet3.insert_range (Diet3.insertSeq ops) lo hi).2 = []) ∧
    ((¬ ∀ i : Int, lo ≤ i → i ≤ hi → coversL (Diet3.insertSeq ops).intervals i) →
      (Diet3.insert_range (Diet3.insertSeq ops) lo hi).2 ≠ []) := by
  have h1 := du_fold_spec ops Diet.Tree.leaf hops OkL_nil
  have h2 := dt_fold_spec ops Diet3.Tree.leaf hops OkL_nil trivial
  refine ⟨?_, ?_, ?_⟩
  · intro hcov
    have h := Diet.du_insert_covered (Diet.insertSeq ops) lo hi h1.1 hlh hcov
    rw [h]
  · intro hcov
    exact (Diet3.dt_insert_covered _ lo hi h2.1.1 h2.1.2 hlh hcov).2
  · intro hncov
    exact Diet3.dt_insert_blits _ lo hi h2.1.1 h2.1.2 hlh hncov

theorem c9_blit_calls_witness :
    (Diet.insert_range (Diet.insertSeq [(1, 6)]) 2 4).2 = [] ∧
    (Diet3.insert_range (Diet3.insertSeq [(1, 6)]) 2 4).2 = [] ∧
    (Diet3.insert_range (Diet3.insertSeq [(1, 2)]) 4 5).2 ≠ [] := by
  have hth1 := c9_blit_calls [(1, 6)] 2 4 (by decide) (by decide)
  have hth2 := c9_blit_calls [(1, 2)] 4 5 (by decide) (by decide)
  refine ⟨hth1.1 ?_, hth1.2.1 ?_, hth2.2.2 ?_⟩
  · intro i ha hb
    exact ⟨(1, 6), by decide, by omega, by omega⟩
  · intro i ha hb
    exact ⟨(1, 6), by decide, by omega, by omega⟩
  · intro hall
    have h4 := hall 4 (by omega) (by omega)
    revert h4
    decide

/-- C10: every interval AVL insert appends exactly one node carrying the
inserted endpoints and never changes the low or high field of any
previously allocated node, for any fuel and any starting state. -/
theorem c10_avl_insert_frame (fuel : Nat) (st : Avl.St) (low high : Int) :
    (Avl.insert fuel st low high).len = st.len + 1 ∧
    ((Avl.insert fuel st low high).nodes st.len).low = low ∧
    ((Avl.insert fuel st low high).nodes st.len).high = high ∧
    ∀ j : Int, j < st.len →
      ((Avl.insert fuel st low high).nodes j).low = (st.nodes j).low ∧
      ((Avl.insert fuel st low high).nodes j).high = (st.nodes j).high := by
  obtain ⟨h1, h2, h3, h4⟩ := Avl.insert_frame fuel st low high
  exact ⟨h1, h2, h3, fun j hj => h4 j (by omega)⟩

theorem c10_avl_insert_frame_witness :
    ((0 : Int) < (Avl.insertSeq 10 [(2, 6), (1, 9)]).len) ∧
    (Avl.insert 10 (Avl.insertSeq 10 [(2, 6), (1, 9)]) 4 5).len
      = (Avl.insertSeq 10 [(2, 6), (1, 9)]).len + 1 ∧
    ((Avl.insert 10 (Avl.insertSeq 10 [(2, 6), (1, 9)]) 4 5).nodes
      (Avl.insertSeq 10 [(2, 6), (1, 9)]).len).low = 4 ∧
    ((Avl.insert 10 (Avl.insertSeq 10 [(2, 6), (1, 9)]) 4 5).nodes 0).low
      = ((Avl.insertSeq 10 [(2, 6), (1, 9)]).nodes 0).low := by
  have hth := c10_avl_insert_frame 10 (Avl.insertSeq 10 [(2, 6), (1, 9)]) 4 5
  exact ⟨by decide, hth.1, hth.2.1, (hth.2.2.2 0 (by decide)).1⟩

end Gamedump
